import Mathlib

/-!
A verification development for the product filtering and ranking core of the
ShopGenie-E electronics recommender.  The definitions below are a shallow
embedding of `app/agents/retrieval_agent.py` and `app/agents/reasoner_agent.py`:

* Python/pandas numbers (ints and floats) are modelled as rationals (`ℚ`),
  so all arithmetic is exact;
* a pandas cell that is NaN / missing / non-numeric after
  `pd.to_numeric(errors="coerce")` is modelled as `none : Option ℚ`;
* a DataFrame is a list of rows plus presence flags for the optional numeric
  columns (the code guards each numeric filter / feature with
  `"col" in df.columns`); the `category` column is always present, since
  `filter_products` indexes it unguarded and every frame reaching
  `rank_products` comes from `filter_products`;
* the intent is a JSON-like dictionary (`PyDict`), as produced by the intent
  agent (`json.loads`);
* the external LLM explanation call is a parameter returning `Except`,
  mirroring a Python call that either returns a string or raises.
-/

/-- ASCII lowercasing of a string, modelling Python `str.lower()` on the
ASCII range used by the catalog and the keyword tables. -/
def pyLower (s : String) : String := ⟨s.data.map Char.toLower⟩

/-- Python `str.strip()` (whitespace removed at both ends). -/
def pyStrip (s : String) : String :=
  ⟨((s.data.dropWhile Char.isWhitespace).reverse.dropWhile Char.isWhitespace).reverse⟩

/-- Python `s.replace("$", "")`: drop every dollar sign. -/
def stripDollars (s : String) : String :=
  ⟨s.data.filter (fun c => !(c == '$'))⟩

/-- Character-list version of "starts with" used by `strContains`. -/
def listStartsWith : List Char → List Char → Bool
  | [], _ => true
  | _ :: _, [] => false
  | a :: as, b :: bs => a == b && listStartsWith as bs

/-- Python substring test `pat in s`. -/
def strContains (s pat : String) : Bool :=
  (s.data.tails).any (fun t => listStartsWith pat.data t)

/-- JSON-like Python values, as produced by `json.loads` in the intent agent:
null, numbers, strings, lists and objects. -/
inductive PyVal where
  | vNone : PyVal
  | num : ℚ → PyVal
  | str : String → PyVal
  | list : List PyVal → PyVal
  | dict : List (String × PyVal) → PyVal

/-- A Python dictionary with string keys (a JSON object). -/
abbrev PyDict := List (String × PyVal)

/-- Python `d.get(k)` (first binding wins; dict keys are unique anyway). -/
def pdGet (d : PyDict) (k : String) : Option PyVal :=
  match d.find? (fun kv => kv.1 == k) with
  | some kv => some kv.2
  | none => none

/-- Python truthiness test (`bool(v)` is `False`) for the JSON values. -/
def pyFalsy : PyVal → Bool
  | .vNone => true
  | .num q => q == 0
  | .str s => s == ""
  | .list l => l.isEmpty
  | .dict l => l.isEmpty

/-- Python `str(v)`.  Exact for strings (the only case the claims exercise);
other cases are a simplified rendering, used only as input to substring
matching and the opaque explanation call. -/
def pyStr : PyVal → String
  | .vNone => "None"
  | .num q => toString q
  | .str s => s
  | .list _ => "[...]"
  | .dict _ => "\x7b...\x7d"

/-- Parse an unsigned decimal literal (digits, optional fractional part),
per Python `float()` on plain decimal strings. -/
def parseUnsignedDec (s : List Char) : Option ℚ :=
  let intPart := s.takeWhile Char.isDigit
  let rest := s.dropWhile Char.isDigit
  let intVal : ℚ := (intPart.foldl (fun n c => n * 10 + (c.toNat - 48)) 0 : ℕ)
  match rest with
  | [] => if intPart.isEmpty then none else some intVal
  | '.' :: fr =>
    if fr.all Char.isDigit && !(intPart.isEmpty && fr.isEmpty) then
      some (intVal + ((fr.foldl (fun n c => n * 10 + (c.toNat - 48)) 0 : ℕ) : ℚ) / (10 : ℚ) ^ fr.length)
    else none
  | _ => none

/-- Python `float(raw)` on an already-stripped string.  Models sign and plain
decimal notation; exotic forms (exponents, inf/nan) are out of the catalog's
and the claims' domain and parse to `none` (an exception in Python, which the
caller catches). -/
def pyFloatOfString (s : String) : Option ℚ :=
  match s.data with
  | '-' :: rest => (parseUnsignedDec rest).map (fun q => -q)
  | '+' :: rest => parseUnsignedDec rest
  | l => parseUnsignedDec l

/-- The body of `_get_float`'s try-block for one value:
`float(str(v).replace("$", "").strip())`, `none` when Python would raise. -/
def tryFloat : PyVal → Option ℚ
  | .num q => some q
  | .str s => pyFloatOfString (pyStrip (stripDollars s))
  | _ => none

/-- Python 3 `round` to an integer: round half to even (banker's rounding). -/
def pyRound (x : ℚ) : ℤ :=
  if x - ⌊x⌋ < 1/2 then ⌊x⌋
  else if x - ⌊x⌋ > 1/2 then ⌊x⌋ + 1
  else if Even ⌊x⌋ then ⌊x⌋ else ⌊x⌋ + 1

/-- Python `math.isclose(a, b)` with the default tolerances
(`rel_tol=1e-9`, `abs_tol=0.0`). -/
def pyIsClose (a b : ℚ) : Bool :=
  decide (|a - b| ≤ 1/1000000000 * max |a| |b|)

/-! ## The catalog data model -/

/-- Presence flags for the optional numeric columns of the catalog frame
(the code guards each use with `"col" in df.columns`). -/
structure ColFlags where
  has_price : Bool
  has_ram : Bool
  has_storage : Bool
  has_battery : Bool
  has_screen : Bool
deriving DecidableEq

/-- One catalog row.  Numeric attributes are `none` when the CSV cell is
missing or non-numeric (NaN after `pd.to_numeric(errors="coerce")`). -/
structure Row where
  id : Option String
  title : Option String
  model : Option String
  category : String
  price_usd : Option ℚ
  ram_gb : Option ℚ
  storage_gb : Option ℚ
  battery_wh : Option ℚ
  screen_inches : Option ℚ
deriving DecidableEq

/-- A pandas DataFrame over the catalog schema. -/
structure PDF where
  flags : ColFlags
  rows : List Row
deriving DecidableEq

/-! ## retrieval_agent.py -/

/-- The `CATEGORY_KEYWORDS` table, in dict insertion order. -/
def CATEGORY_KEYWORDS : List (String × List String) :=
  [("laptop",  ["laptop", "notebook", "ultrabook"]),
   ("phone",   ["phone", "smartphone", "mobile"]),
   ("tablet",  ["tablet", "ipad", "tab"]),
   ("monitor", ["monitor", "screen", "display"])]

/-- The intent-keys loop of `detect_category`: first key whose value is a
non-blank string naming a known category wins; other keys fall through. -/
def dcFromIntent (intent : PyDict) : List String → Option String
  | [] => none
  | k :: ks =>
    match pdGet intent k with
    | some (.str s) =>
      if pyStrip s ≠ "" ∧ pyLower (pyStrip s) ∈ (CATEGORY_KEYWORDS.map Prod.fst) then
        some (pyLower (pyStrip s))
      else dcFromIntent intent ks
    | _ => dcFromIntent intent ks

/-- `detect_category(intent, user_query)`: explicit intent field, then
keyword match on the lowercased query, then the `"laptop"` default. -/
def detect_category (intent : PyDict) (user_query : String) : String :=
  match dcFromIntent intent ["category", "device_type", "product_type"] with
  | some c => c
  | none =>
    match CATEGORY_KEYWORDS.find?
        (fun ck => ck.2.any (fun kw => strContains (pyLower user_query) kw)) with
    | some ck => ck.1
    | none => "laptop"

/-- `_get_float(intent, keys)`: first key present with a non-`None` value
whose cleaned string parses as a float; parse failures fall through to the
next key. -/
def _get_float (intent : PyDict) : List String → Option ℚ
  | [] => none
  | k :: ks =>
    match pdGet intent k with
    | some .vNone => _get_float intent ks
    | some v =>
      match tryFloat v with
      | some x => some x
      | none => _get_float intent ks
    | none => _get_float intent ks

/-- One guarded numeric filter step of `filter_products`:
`if value is not None and "col" in df.columns: df = df[pred]`. -/
def condFilter (value : Option ℚ) (flag : Bool) (pred : ℚ → Row → Bool)
    (l : List Row) : List Row :=
  match value with
  | some v => if flag then l.filter (pred v) else l
  | none => l

/-- The category-matching rows of the catalog: `df[df["category"] == category]`. -/
def categoryRows (catalog : PDF) (category : String) : List Row :=
  catalog.rows.filter (fun r => r.category == category)

/-- The rows surviving all four numeric filters of `filter_products`
(budget, min RAM, min storage, min battery), applied to the
category-matching rows.  A NaN price fails `price_usd <= budget`; the three
minimum filters use `fillna(0)`. -/
def numFiltered (catalog : PDF) (intent : PyDict) (user_query : String) : List Row :=
  let category := detect_category intent user_query
  let df0 := categoryRows catalog category
  let df1 := condFilter (_get_float intent ["budget_max", "max_price", "budget", "price_cap"])
      catalog.flags.has_price
      (fun b r => match r.price_usd with | some p => decide (p ≤ b) | none => false) df0
  let df2 := condFilter (_get_float intent ["min_ram_gb", "ram_min", "ram_gb_min", "min_ram"])
      catalog.flags.has_ram
      (fun m r => decide (m ≤ r.ram_gb.getD 0)) df1
  let df3 := condFilter (_get_float intent ["min_storage_gb", "storage_min", "min_storage"])
      catalog.flags.has_storage
      (fun m r => decide (m ≤ r.storage_gb.getD 0)) df2
  condFilter (_get_float intent ["min_battery_wh", "battery_min", "battery_wh_min"])
      catalog.flags.has_battery
      (fun m r => decide (m ≤ r.battery_wh.getD 0)) df3

/-- `filter_products(intent, user_query)` over an explicit catalog: category
filter, then the numeric filters, falling back to the category-only rows if
the numeric filters empty the frame. -/
def filter_products (catalog : PDF) (intent : PyDict) (user_query : String) : PDF :=
  let category := detect_category intent user_query
  let df := numFiltered catalog intent user_query
  if df.isEmpty then ⟨catalog.flags, categoryRows catalog category⟩
  else ⟨catalog.flags, df⟩

/-! ## reasoner_agent.py -/

/-- The usable (numeric, non-NaN) values of a column, in order: what remains
after `pd.to_numeric(errors="coerce")` and skipping NaNs. -/
def usableVals (col : List (Option ℚ)) : List ℚ := col.filterMap id

/-- The pandas `s.min()` of a column (`none` when every value is NaN). -/
def seriesLo (col : List (Option ℚ)) : Option ℚ :=
  match usableVals col with
  | [] => none
  | x :: xs => some (xs.foldl min x)

/-- The pandas `s.max()` of a column (`none` when every value is NaN). -/
def seriesHi (col : List (Option ℚ)) : Option ℚ :=
  match usableVals col with
  | [] => none
  | x :: xs => some (xs.foldl max x)

/-- `_normalize_series(series, higher_is_better)`: min-max normalization to
[0,1] with NaNs filled with 0.5, all-0.5 when every value is NaN or when
`math.isclose(min, max)`. -/
def _normalize_series (col : List (Option ℚ)) (higher_is_better : Bool) : List ℚ :=
  match usableVals col with
  | [] => col.map (fun _ => (1 : ℚ)/2)
  | x :: xs =>
    let mn := xs.foldl min x
    let mx := xs.foldl max x
    if pyIsClose mn mx then col.map (fun _ => (1 : ℚ)/2)
    else col.map (fun v =>
      match v with
      | none => (1 : ℚ)/2
      | some t => if higher_is_better then (t - mn) / (mx - mn)
                  else 1 - (t - mn) / (mx - mn))

/-- The four scoring criteria (the keys of a Weight Set). -/
inductive Criterion where
  | price : Criterion
  | performance : Criterion
  | battery : Criterion
  | screen : Criterion
deriving DecidableEq

/-- The dictionary key of a criterion. -/
def critName : Criterion → String
  | .price => "price"
  | .performance => "performance"
  | .battery => "battery"
  | .screen => "screen"

/-- A Python weight dictionary, in insertion order. -/
abbrev WeightDict := List (String × ℚ)

/-- Dictionary lookup `weights[k]` (0 for a missing key, which never occurs:
the four keys are always present). -/
def getW (w : WeightDict) (k : String) : ℚ :=
  match w.find? (fun kv => kv.1 == k) with
  | some kv => kv.2
  | none => 0

/-- The category-dependent base weights of `_compute_weights`, in dict
insertion order price / performance / battery / screen.  Any category other
than laptop/tablet/phone takes the `else` (monitor) branch. -/
def baseWeights (category : String) : WeightDict :=
  if category ∈ ["laptop", "tablet", "phone"] then
    [("price", 30/100), ("performance", 40/100), ("battery", 30/100), ("screen", 0)]
  else
    [("price", 40/100), ("performance", 10/100), ("battery", 0), ("screen", 50/100)]

/-- `bump(key, delta)`: add `delta` to `weights[key]` if the key is present. -/
def bump (w : WeightDict) (key : String) (delta : ℚ) : WeightDict :=
  w.map (fun kv => if kv.1 == key then (kv.1, kv.2 + delta) else kv)

/-- Whether one (lowercased) goal string matches a criterion's keyword group
(the substring tests of `_compute_weights`). -/
def goalMatches (c : Criterion) (g : String) : Bool :=
  match c with
  | .performance => strContains g "performance" || strContains g "speed" || strContains g "gaming"
  | .battery => strContains g "battery" || strContains g "long life" || strContains g "all day"
  | .price => strContains g "budget" || strContains g "cheap" || strContains g "affordable" || strContains g "price"
  | .screen => strContains g "screen" || strContains g "display" || strContains g "bigger"

/-- The body of the `for g in goals` loop: up to four `bump` calls, one per
keyword group, each at most once per goal. -/
def goalBumps (w : WeightDict) (g : String) : WeightDict :=
  let w := if goalMatches .performance g then bump w "performance" (15/100) else w
  let w := if goalMatches .battery g then bump w "battery" (15/100) else w
  let w := if goalMatches .price g then bump w "price" (15/100) else w
  if goalMatches .screen g then bump w "screen" (15/100) else w

/-- The weight dictionary after the base-weight choice and all goal bumps,
before renormalization. -/
def preWeights (goals : List String) (category : String) : WeightDict :=
  goals.foldl goalBumps (baseWeights category)

/-- The goal list extracted from the intent:
`goals_raw = intent.get("primary_goals") or []`, a bare string becoming a
one-element list, any other value iterated element-wise with `str`.
`lower` selects between `_compute_weights` (lowercased) and the
`rank_products` explanation goals (verbatim).  Iterating a number raises
`TypeError` in Python; that case (excluded by `goalsOK`) is mapped to `[]`. -/
def pyGoals (intent : PyDict) (lower : Bool) : List String :=
  let raw := (pdGet intent "primary_goals").getD .vNone
  if pyFalsy raw then []
  else
    match raw with
    | .str s => [if lower then pyLower s else s]
    | .list l => l.map (fun g => if lower then pyLower (pyStr g) else pyStr g)
    | .dict l => l.map (fun kv => if lower then pyLower kv.1 else kv.1)
    | _ => []

/-- The intents on which the Python goal extraction does not raise: every
JSON value of `primary_goals` except a non-zero number (iterating a number
raises `TypeError`). -/
def goalsOK (intent : PyDict) : Bool :=
  match pdGet intent "primary_goals" with
  | some (.num q) => q == 0
  | _ => true

/-- `_compute_weights(intent, category)`: base weights, goal bumps, then
renormalization to sum 1, with the defensive equal split if the accumulated
total is not positive. -/
def _compute_weights (intent : PyDict) (category : String) : WeightDict :=
  let weights := preWeights (pyGoals intent true) category
  let total := (weights.map Prod.snd).sum
  if total ≤ 0 then weights.map (fun kv => (kv.1, (1 : ℚ) / weights.length))
  else weights.map (fun kv => (kv.1, kv.2 / total))

/-! ### rank_products -/

/-- One entry of the `results` list of `rank_products`. -/
structure Item where
  id : Option String
  title : String
  score : ℤ
  explanation : String
deriving DecidableEq

/-- The record returned by `rank_products`. -/
structure RankResult where
  results : List Item
  category : Option String
  weights : WeightDict

/-- The external explanation collaborator (`_build_explanation`, i.e. the
LLM call): given the row, the continuous score, the category and the goal
list it returns a string or raises (modelled by `Except`). -/
abbrev ExplainFn := Row → ℚ → String → List String → Except String String

/-- The resolved category of a non-empty frame:
`products["category"].iloc[0].strip().lower()` (the `"category" in columns`
guard never fails: every frame reaching `rank_products` went through the
category filter of `filter_products`). -/
def rankCategory (df : PDF) : String :=
  match df.rows with
  | [] => "laptop"
  | r :: _ => pyLower (pyStrip r.category)

/-- A neutral all-0.5 series of the frame's length
(`pd.Series([0.5] * len(df))`). -/
def neutralSeries (df : PDF) : List ℚ := df.rows.map (fun _ => (1 : ℚ)/2)

/-- The price feature column of `rank_products` (lower is better). -/
def priceSeries (df : PDF) : List ℚ :=
  if df.flags.has_price then _normalize_series (df.rows.map (fun r => r.price_usd)) false
  else neutralSeries df

/-- The performance proxy column: `0.7·ram + 0.3·storage` for
laptop/tablet/phone, neutral otherwise (monitor). -/
def perfSeries (df : PDF) (category : String) : List ℚ :=
  if category ∈ ["laptop", "tablet", "phone"] then
    let ram := if df.flags.has_ram then _normalize_series (df.rows.map (fun r => r.ram_gb)) true
               else neutralSeries df
    let storage := if df.flags.has_storage then _normalize_series (df.rows.map (fun r => r.storage_gb)) true
                   else neutralSeries df
    List.zipWith (fun a b => 7/10 * a + 3/10 * b) ram storage
  else neutralSeries df

/-- The battery feature column (higher is better). -/
def batterySeries (df : PDF) : List ℚ :=
  if df.flags.has_battery then _normalize_series (df.rows.map (fun r => r.battery_wh)) true
  else neutralSeries df

/-- The screen-size feature column (higher is better). -/
def screenSeries (df : PDF) : List ℚ :=
  if df.flags.has_screen then _normalize_series (df.rows.map (fun r => r.screen_inches)) true
  else neutralSeries df

/-- Elementwise combination of four lists (a pandas expression over four
aligned columns). -/
def zipWith4 (f : ℚ → ℚ → ℚ → ℚ → ℚ) : List ℚ → List ℚ → List ℚ → List ℚ → List ℚ
  | a :: as, b :: bs, c :: cs, d :: ds => f a b c d :: zipWith4 f as bs cs ds
  | _, _, _, _ => []

/-- The `score_continuous` column: the weighted sum of the four feature
columns under the resolved Weight Set. -/
def scoreSeries (intent : PyDict) (df : PDF) : List ℚ :=
  let category := rankCategory df
  let w := _compute_weights intent category
  zipWith4 (fun p f b s =>
      getW w "price" * p + getW w "performance" * f + getW w "battery" * b + getW w "screen" * s)
    (priceSeries df) (perfSeries df category) (batterySeries df) (screenSeries df)

/-- The rows annotated with their continuous scores, in catalog order. -/
def scoredRows (intent : PyDict) (df : PDF) : List (Row × ℚ) :=
  df.rows.zip (scoreSeries intent df)

/-- The strict key comparison `@TYPE@_LT` of numpy's sorting routines. -/
def npLT (a b : ℚ) : Bool := decide (a < b)

/-- The key under an index (`v[i]` of numpy's argsorts); total with a
default that is never consulted on an in-range run. -/
def keyAt (keys : List ℚ) (i : ℕ) : ℚ := keys.getD i 0

/-- `INTP_SWAP` of two positions of the index array, guarded so that an
out-of-range swap (unreachable on a real run) is a no-op rather than
corrupting the array. -/
def idxSwap (ts : List ℕ) (i j : ℕ) : List ℕ :=
  if i < ts.length ∧ j < ts.length then
    (ts.set i (ts.getD j 0)).set j (ts.getD i 0)
  else ts

/-- One insert of `aquicksort_`'s insertion-sort phase, functionally: the
held index `vi` is shifted left past entries with strictly greater keys
(`while (pj > pl && LT(vp, v[*pk]))`), so it lands after entries with equal
keys — the stable placement. -/
def insAfterEq (keys : List ℚ) (vi : ℕ) : List ℕ → List ℕ
  | [] => [vi]
  | j :: js => if npLT (keyAt keys vi) (keyAt keys j) then vi :: j :: js
               else j :: insAfterEq keys vi js

/-- numpy's insertion sort of an index list by key, processing left to
right (stable: equal keys keep their relative order). -/
def insSortIdx (keys : List ℚ) (ts : List ℕ) : List ℕ :=
  ts.foldl (fun acc vi => insAfterEq keys vi acc) []

/-- Insertion-sort the segment `[lo, hi]` of the index array and leave the
rest untouched (the small-segment phase of `aquicksort_`); guarded to be a
no-op out of range. -/
def sortSeg (keys : List ℚ) (ts : List ℕ) (lo hi : ℕ) : List ℕ :=
  if lo ≤ hi ∧ hi < ts.length then
    ts.take lo ++ insSortIdx keys ((ts.drop lo).take (hi + 1 - lo)) ++ ts.drop (hi + 1)
  else ts

/-- The upward pointer walk `do ++pi; while (LT(v[*pi], vp));` of the
Hoare scan (fuelled; the median-of-three sentinels stop it in range). -/
def walkUp (keys : List ℚ) (ts : List ℕ) (vp : ℚ) : ℕ → ℕ → ℕ
  | 0, pi => pi
  | fuel + 1, pi =>
    if npLT (keyAt keys (ts.getD (pi + 1) 0)) vp then walkUp keys ts vp fuel (pi + 1)
    else pi + 1

/-- The downward pointer walk `do --pj; while (LT(vp, v[*pj]));`. -/
def walkDown (keys : List ℚ) (ts : List ℕ) (vp : ℚ) : ℕ → ℕ → ℕ
  | 0, pj => pj
  | fuel + 1, pj =>
    if npLT vp (keyAt keys (ts.getD (pj - 1) 0)) then walkDown keys ts vp fuel (pj - 1)
    else pj - 1

/-- The Hoare scan of `aquicksort_`'s partition step: walk the pointers
inward, swapping out-of-place entries, until they cross (`if (pi >= pj)
break;`); returns the array and the crossing position `pi`. -/
def scanLoop (keys : List ℚ) (vp : ℚ) : ℕ → List ℕ → ℕ → ℕ → List ℕ × ℕ
  | 0, ts, pi, _ => (ts, pi)
  | fuel + 1, ts, pi, pj =>
    let pi' := walkUp keys ts vp (ts.length + 2) pi
    let pj' := walkDown keys ts vp (ts.length + 2) pj
    if pj' ≤ pi' then (ts, pi')
    else scanLoop keys vp fuel (idxSwap ts pi' pj') pi' pj'

/-- The median-of-three pivot choice and Hoare partition of `aquicksort_`
on the segment `[lo, hi]`: order `*pl`, `*pm`, `*pr` by key, park the pivot
at `hi - 1`, scan, and swap the pivot to the crossing position, which is
returned with the array. -/
def npPartition (keys : List ℚ) (ts : List ℕ) (lo hi : ℕ) : List ℕ × ℕ :=
  let pm := lo + (hi - lo) / 2
  let ts := if npLT (keyAt keys (ts.getD pm 0)) (keyAt keys (ts.getD lo 0)) then
      idxSwap ts pm lo else ts
  let ts := if npLT (keyAt keys (ts.getD hi 0)) (keyAt keys (ts.getD pm 0)) then
      idxSwap ts hi pm else ts
  let ts := if npLT (keyAt keys (ts.getD pm 0)) (keyAt keys (ts.getD lo 0)) then
      idxSwap ts pm lo else ts
  let vp := keyAt keys (ts.getD pm 0)
  let ts := idxSwap ts pm (hi - 1)
  let r := scanLoop keys vp (hi + 2) ts lo (hi - 1)
  (idxSwap r.1 r.2 (hi - 1), r.2)

/-- The child selection of `aheapsort_`'s sift:
`if (j < n && LT(v[a[j]], v[a[j+1]])) j += 1;` (1-based positions within
the segment at `base`). -/
def siftChild (keys : List ℚ) (base : ℕ) (ts : List ℕ) (j n : ℕ) : ℕ :=
  if j < n ∧ npLT (keyAt keys (ts.getD (base + j - 1) 0))
      (keyAt keys (ts.getD (base + j) 0)) then j + 1 else j

/-- One sift-down of `aheapsort_`, in the swap formulation: the C code
holds `tmp = a[i]` out and shifts children up, writing `tmp` into the final
hole; swapping `a[i]` down step by step produces the identical final array.
Positions are 1-based within the segment starting at list position
`base`. -/
def siftDown (keys : List ℚ) (base : ℕ) : ℕ → List ℕ → ℕ → ℕ → List ℕ
  | 0, ts, _, _ => ts
  | fuel + 1, ts, i, n =>
    if 2 * i ≤ n then
      if npLT (keyAt keys (ts.getD (base + i - 1) 0))
          (keyAt keys (ts.getD (base + siftChild keys base ts (2 * i) n - 1) 0)) then
        siftDown keys base fuel
          (idxSwap ts (base + i - 1) (base + siftChild keys base ts (2 * i) n - 1))
          (siftChild keys base ts (2 * i) n) n
      else ts
    else ts

/-- The heapify loop of `aheapsort_`: `for (l = n >> 1; l > 0; --l)`. -/
def heapLoop1 (keys : List ℚ) (base n : ℕ) : ℕ → List ℕ → ℕ → List ℕ
  | 0, ts, _ => ts
  | fuel + 1, ts, l =>
    if l = 0 then ts
    else heapLoop1 keys base n fuel (siftDown keys base (n + 2) ts l n) (l - 1)

/-- The extraction loop of `aheapsort_`: swap the maximum to the end and
re-sift from the root while more than one element remains. -/
def heapLoop2 (keys : List ℚ) (base : ℕ) : ℕ → List ℕ → ℕ → List ℕ
  | 0, ts, _ => ts
  | fuel + 1, ts, n =>
    if n ≤ 1 then ts
    else
      heapLoop2 keys base fuel
        (siftDown keys base (n + 2) (idxSwap ts (base + n - 1) base) 1 (n - 1)) (n - 1)

/-- `aheapsort_` on the segment `[lo, hi]` — the introsort depth-limit
fallback of `aquicksort_`; guarded like the other segment operations. -/
def npHeapsortSeg (keys : List ℚ) (ts : List ℕ) (lo hi : ℕ) : List ℕ :=
  if lo ≤ hi ∧ hi < ts.length then
    let n := hi - lo + 1
    heapLoop2 keys lo (n + 2) (heapLoop1 keys lo n (n + 2) ts (n / 2)) n
  else ts

/-- The recursive core of numpy's `aquicksort_` (an introsort): partition
while the segment holds more than `SMALL_QUICKSORT = 15` pointer-widths
(more than 16 entries), fall back to `aheapsort_` when the depth budget is
exhausted, and insertion-sort small segments.  numpy schedules the two
sides of a partition with an explicit stack (largest pushed, smallest
looped); the sides are disjoint and every operation is local to its
segment, so recursing left then right yields the identical final array.
`fuel` dominates the recursion depth (each level sheds at least the pivot)
and is never exhausted on a real run. -/
def aqsortRec (keys : List ℚ) : ℕ → ℕ → List ℕ → ℕ → ℕ → List ℕ
  | 0, _, ts, _, _ => ts
  | fuel + 1, cdepth, ts, lo, hi =>
    if hi ≤ lo then ts
    else if 15 < hi - lo then
      if cdepth = 0 then npHeapsortSeg keys ts lo hi
      else
        let pr := npPartition keys ts lo hi
        aqsortRec keys fuel (cdepth - 1)
          (aqsortRec keys fuel (cdepth - 1) pr.1 lo (pr.2 - 1)) (pr.2 + 1) hi
    else sortSeg keys ts lo hi

/-- numpy `np.argsort(keys, kind="quicksort")`: the indices `0 .. n-1`
reordered so that the keys read in that order ascend, with the depth
budget `2 · log2 n` of the introsort. -/
def np_aquicksort (keys : List ℚ) : List ℕ :=
  aqsortRec keys (keys.length + 1) (2 * Nat.log2 keys.length)
    (List.range keys.length) 0 (keys.length - 1)

/-- `df.sort_values("score_continuous", ascending=False)` with the default
`kind='quicksort'`, as pandas `nargsort` implements a descending sort: the
score column is reversed, argsorted ascending by numpy's quicksort, the
resulting order is mapped through the reversed positions and reversed
again, and the rows are taken in that index order.  (`score_continuous` is
never NaN here, so `nargsort`'s NaN bookkeeping is the identity and is
omitted.)  numpy's quicksort is stable only on its small-array
insertion-sort path (at most 16 entries): on larger frames equal keys may
be reordered by the partition swaps. -/
def sort_values_desc (l : List (Row × ℚ)) : List (Row × ℚ) :=
  let keys := (l.map Prod.snd).reverse
  let revIdx := (List.range l.length).reverse
  let indexer := ((np_aquicksort keys).map (fun j => revIdx.getD j 0)).reverse
  indexer.filterMap (fun i => l[i]?)

/-- Python `a or b` for optional strings:
`row.get("title") or row.get("model") or "Unknown product"` treats both a
missing key (`None`) and an empty string as falsy. -/
def orStr (a : Option String) (b : String) : String :=
  match a with
  | some s => if s == "" then b else s
  | none => b

/-- The `results` entry built for one scored row: id, title fallback chain,
the 0-100 display score `int(round(score * 100))`, and the explanation, with
a failing explanation call caught and replaced by the placeholder string. -/
def mkItem (category : String) (goals : List String) (explain : ExplainFn)
    (rc : Row × ℚ) : Item :=
  { id := rc.1.id
    title := orStr rc.1.title (orStr rc.1.model "Unknown product")
    score := pyRound (rc.2 * 100)
    explanation :=
      match explain rc.1 rc.2 category goals with
      | .ok s => s
      | .error e => "(Could not generate explanation: " ++ e ++ ")" }

/-- `rank_products(intent, products)` with the explanation collaborator as
an explicit parameter.  `None` and an empty frame return the fixed empty
record; otherwise the scored rows are sorted best-to-worst and turned into
result items. -/
def rank_products (intent : PyDict) (products : Option PDF) (explain : ExplainFn) :
    RankResult :=
  match products with
  | none => { results := [], category := none, weights := [] }
  | some df =>
    if df.rows.isEmpty then { results := [], category := none, weights := [] }
    else
      let category := rankCategory df
      { results := (sort_values_desc (scoredRows intent df)).map
          (mkItem category (pyGoals intent false) explain)
        category := some category
        weights := _compute_weights intent category }


/-! ## Helper lemmas: normalization -/

theorem foldl_min_le_init (xs : List ℚ) (a : ℚ) : xs.foldl min a ≤ a := by
  induction xs generalizing a with
  | nil => simp
  | cons x xs ih => exact le_trans (ih (min a x)) (min_le_left a x)

theorem foldl_min_le_mem (xs : List ℚ) (a t : ℚ) (ht : t ∈ xs) : xs.foldl min a ≤ t := by
  induction xs generalizing a with
  | nil => cases ht
  | cons x xs ih =>
    rcases List.mem_cons.1 ht with rfl | h
    · exact le_trans (foldl_min_le_init xs (min a t)) (min_le_right a t)
    · exact ih (min a x) h

theorem le_foldl_max_init (xs : List ℚ) (a : ℚ) : a ≤ xs.foldl max a := by
  induction xs generalizing a with
  | nil => simp
  | cons x xs ih => exact le_trans (le_max_left a x) (ih (max a x))

theorem le_foldl_max_mem (xs : List ℚ) (a t : ℚ) (ht : t ∈ xs) : t ≤ xs.foldl max a := by
  induction xs generalizing a with
  | nil => cases ht
  | cons x xs ih =>
    rcases List.mem_cons.1 ht with rfl | h
    · exact le_trans (le_max_right a t) (le_foldl_max_init xs (max a t))
    · exact ih (max a x) h

theorem usable_lo_le (x t : ℚ) (xs : List ℚ) (ht : t ∈ x :: xs) : xs.foldl min x ≤ t := by
  rcases List.mem_cons.1 ht with rfl | h
  · exact foldl_min_le_init xs t
  · exact foldl_min_le_mem xs x t h

theorem usable_le_hi (x t : ℚ) (xs : List ℚ) (ht : t ∈ x :: xs) : t ≤ xs.foldl max x := by
  rcases List.mem_cons.1 ht with rfl | h
  · exact le_foldl_max_init xs t
  · exact le_foldl_max_mem xs x t h

/-- If `math.isclose(mn, mx)` is false then `mn ≠ mx`. -/
theorem ne_of_not_isClose (mn mx : ℚ) (h : pyIsClose mn mx = false) : mn ≠ mx := by
  intro he
  rw [pyIsClose, decide_eq_false_iff_not] at h
  apply h
  rw [he, sub_self, abs_zero]
  positivity

/-- Each usable value of a column is a member of the column wrapped in `some`. -/
theorem mem_usableVals_of_mem (col : List (Option ℚ)) (t : ℚ)
    (h : some t ∈ col) : t ∈ usableVals col := by
  exact List.mem_filterMap.2 ⟨some t, h, rfl⟩

/-- Unfolding of `_normalize_series` when every value is unusable. -/
theorem normalize_eq_nil (col : List (Option ℚ)) (hib : Bool)
    (hu : usableVals col = []) :
    _normalize_series col hib = col.map (fun _ => (1 : ℚ)/2) := by
  rw [_normalize_series, hu]

/-- Unfolding of `_normalize_series` on a usable head and tail. -/
theorem normalize_eq_cons (col : List (Option ℚ)) (hib : Bool) (x : ℚ) (xs : List ℚ)
    (hu : usableVals col = x :: xs) :
    _normalize_series col hib =
      (if pyIsClose (xs.foldl min x) (xs.foldl max x) then col.map (fun _ => (1 : ℚ)/2)
       else col.map (fun v =>
        match v with
        | none => (1 : ℚ)/2
        | some t => if hib then (t - xs.foldl min x) / (xs.foldl max x - xs.foldl min x)
                    else 1 - (t - xs.foldl min x) / (xs.foldl max x - xs.foldl min x))) := by
  rw [_normalize_series, hu]

/-- Every output of `_normalize_series` is in `[0, 1]`. -/
theorem normalize_mem_bounds (col : List (Option ℚ)) (hib : Bool) :
    ∀ v ∈ _normalize_series col hib, 0 ≤ v ∧ v ≤ 1 := by
  intro v hv
  rcases hu : usableVals col with _ | ⟨x, xs⟩
  · rw [normalize_eq_nil col hib hu] at hv
    rcases List.mem_map.1 hv with ⟨w, _, rfl⟩
    norm_num
  · rw [normalize_eq_cons col hib x xs hu] at hv
    by_cases hc : pyIsClose (xs.foldl min x) (xs.foldl max x) = true
    · rw [if_pos hc] at hv
      rcases List.mem_map.1 hv with ⟨w, _, rfl⟩
      norm_num
    · rw [if_neg hc] at hv
      rcases List.mem_map.1 hv with ⟨w, hw, rfl⟩
      rcases w with _ | t
      · norm_num
      · have htu : t ∈ x :: xs := by
          rw [← hu]; exact mem_usableVals_of_mem col t hw
        have hlo : xs.foldl min x ≤ t := usable_lo_le x t xs htu
        have hhi : t ≤ xs.foldl max x := usable_le_hi x t xs htu
        have hlomx : xs.foldl min x ≤ xs.foldl max x := le_trans hlo hhi
        have hne : xs.foldl min x ≠ xs.foldl max x :=
          ne_of_not_isClose _ _ (Bool.not_eq_true _ ▸ hc)
        have hlt : xs.foldl min x < xs.foldl max x := lt_of_le_of_ne hlomx hne
        have hpos : (0:ℚ) < xs.foldl max x - xs.foldl min x := by linarith
        have h01 : 0 ≤ (t - xs.foldl min x) / (xs.foldl max x - xs.foldl min x) ∧
            (t - xs.foldl min x) / (xs.foldl max x - xs.foldl min x) ≤ 1 := by
          constructor
          · apply div_nonneg (by linarith) (le_of_lt hpos)
          · rw [div_le_one hpos]; linarith
        dsimp only
        rcases hib with _ | _
        · rw [if_neg (by simp : ¬(false = true))]
          constructor <;> linarith [h01.1, h01.2]
        · rw [if_pos rfl]
          exact h01

/-- `_normalize_series` preserves length. -/
theorem normalize_length (col : List (Option ℚ)) (hib : Bool) :
    (_normalize_series col hib).length = col.length := by
  rcases hu : usableVals col with _ | ⟨x, xs⟩
  · rw [normalize_eq_nil col hib hu]; simp
  · rw [normalize_eq_cons col hib x xs hu]
    by_cases hc : pyIsClose (xs.foldl min x) (xs.foldl max x) = true <;> simp [hc]

/-- `seriesLo` unfolding on a non-empty usable list. -/
theorem seriesLo_eq_cons (col : List (Option ℚ)) (x : ℚ) (xs : List ℚ)
    (hu : usableVals col = x :: xs) : seriesLo col = some (xs.foldl min x) := by
  rw [seriesLo, hu]

/-- `seriesHi` unfolding on a non-empty usable list. -/
theorem seriesHi_eq_cons (col : List (Option ℚ)) (x : ℚ) (xs : List ℚ)
    (hu : usableVals col = x :: xs) : seriesHi col = some (xs.foldl max x) := by
  rw [seriesHi, hu]

/-- If `seriesLo` returns a value, the usable values are non-empty and the
value is their running minimum. -/
theorem seriesLo_cases (col : List (Option ℚ)) (mn : ℚ) (h : seriesLo col = some mn) :
    ∃ x xs, usableVals col = x :: xs ∧ mn = xs.foldl min x := by
  rcases hu : usableVals col with _ | ⟨x, xs⟩
  · rw [seriesLo, hu] at h; cases h
  · rw [seriesLo_eq_cons col x xs hu] at h
    exact ⟨x, xs, rfl, (Option.some_inj.1 h).symm⟩

/-- If `seriesHi` returns a value, it is the running maximum of the usable
values. -/
theorem seriesHi_cases (col : List (Option ℚ)) (mx : ℚ) (h : seriesHi col = some mx) :
    ∃ x xs, usableVals col = x :: xs ∧ mx = xs.foldl max x := by
  rcases hu : usableVals col with _ | ⟨x, xs⟩
  · rw [seriesHi, hu] at h; cases h
  · rw [seriesHi_eq_cons col x xs hu] at h
    exact ⟨x, xs, rfl, (Option.some_inj.1 h).symm⟩

/-- In the discriminating case, `_normalize_series` computes the min-max
formula entrywise (0.5 for unusable entries, inverted when lower is better). -/
theorem normalize_entry (col : List (Option ℚ)) (hib : Bool) (mn mx : ℚ)
    (hlo : seriesLo col = some mn) (hhi : seriesHi col = some mx)
    (hnc : pyIsClose mn mx = false) (i : ℕ) :
    (_normalize_series col hib)[i]? = (col[i]?).map (fun v =>
      match v with
      | none => (1 : ℚ)/2
      | some t => if hib then (t - mn) / (mx - mn) else 1 - (t - mn) / (mx - mn)) := by
  rcases seriesLo_cases col mn hlo with ⟨x, xs, hu, hmn⟩
  rcases seriesHi_cases col mx hhi with ⟨x', xs', hu', hmx⟩
  rw [hu] at hu'
  cases hu'
  rw [normalize_eq_cons col hib x xs hu, ← hmn, ← hmx, if_neg (by rw [hnc]; simp)]
  rw [List.getElem?_map]

/-! ## Helper lemmas: the descending sort

The permutation property holds on every path of the introsort (all its
operations are guarded swaps or segment insertion sorts); sortedness and
tie stability are established for the insertion-sort path, the only regime
in which numpy's quicksort guarantees them. -/

theorem getD_cons_swap_perm (t : List ℕ) (x : ℕ) :
    ∀ (m : ℕ), m < t.length →
      (t.getD m 0 :: t.set m x).Perm (x :: t) := by
  induction t with
  | nil => intro m hm; cases hm
  | cons y t ih =>
    intro m hm
    rcases m with _ | k
    · simp only [List.getD_cons_zero, List.set_cons_zero]
      exact List.Perm.swap x y t
    · simp only [List.getD_cons_succ, List.set_cons_succ]
      have h1 : (t.getD k 0 :: y :: t.set k x).Perm (y :: t.getD k 0 :: t.set k x) :=
        List.Perm.swap y (t.getD k 0) (t.set k x)
      have h2 : (y :: t.getD k 0 :: t.set k x).Perm (y :: x :: t) :=
        List.Perm.cons y (ih k (by simpa using hm))
      have h3 : (y :: x :: t).Perm (x :: y :: t) := List.Perm.swap x y t
      exact (h1.trans h2).trans h3

theorem swapCore_perm (t : List ℕ) :
    ∀ (i j : ℕ), i < t.length → j < t.length →
      ((t.set i (t.getD j 0)).set j (t.getD i 0)).Perm t := by
  induction t with
  | nil => intro i j hi _; cases hi
  | cons x t ih =>
    intro i j hi hj
    rcases i with _ | m <;> rcases j with _ | k
    · simp
    · simp only [List.getD_cons_zero, List.getD_cons_succ, List.set_cons_zero,
        List.set_cons_succ]
      exact getD_cons_swap_perm t x k (by simpa using hj)
    · simp only [List.getD_cons_zero, List.getD_cons_succ, List.set_cons_zero,
        List.set_cons_succ]
      exact getD_cons_swap_perm t x m (by simpa using hi)
    · simp only [List.getD_cons_succ, List.set_cons_succ]
      exact List.Perm.cons x (ih m k (by simpa using hi) (by simpa using hj))

theorem idxSwap_perm (ts : List ℕ) (i j : ℕ) : (idxSwap ts i j).Perm ts := by
  rw [idxSwap]
  by_cases h : i < ts.length ∧ j < ts.length
  · rw [if_pos h]; exact swapCore_perm ts i j h.1 h.2
  · rw [if_neg h]

theorem insAfterEq_perm (keys : List ℚ) (vi : ℕ) (l : List ℕ) :
    (insAfterEq keys vi l).Perm (vi :: l) := by
  induction l with
  | nil => rfl
  | cons j js ih =>
    rw [insAfterEq]
    by_cases h : npLT (keyAt keys vi) (keyAt keys j) = true
    · rw [if_pos h]
    · rw [if_neg h]
      exact (List.Perm.cons j ih).trans (List.Perm.swap vi j js)

theorem foldl_insAfterEq_perm (keys : List ℚ) :
    ∀ (ts acc : List ℕ),
      (ts.foldl (fun a vi => insAfterEq keys vi a) acc).Perm (acc ++ ts) := by
  intro ts
  induction ts with
  | nil => intro acc; simp
  | cons i tl ih =>
    intro acc
    rw [List.foldl_cons]
    refine (ih (insAfterEq keys i acc)).trans ?_
    have h1 : (insAfterEq keys i acc ++ tl).Perm ((i :: acc) ++ tl) :=
      (insAfterEq_perm keys i acc).append_right tl
    refine h1.trans ?_
    have h2 : ((i :: acc) ++ tl) = i :: (acc ++ tl) := rfl
    rw [h2]
    exact List.perm_middle.symm

theorem insSortIdx_perm (keys : List ℚ) (ts : List ℕ) :
    (insSortIdx keys ts).Perm ts := by
  have := foldl_insAfterEq_perm keys ts []
  simpa [insSortIdx] using this

theorem seg_split (ts : List ℕ) (lo hi : ℕ) (h : lo ≤ hi ∧ hi < ts.length) :
    ts = ts.take lo ++ (ts.drop lo).take (hi + 1 - lo) ++ ts.drop (hi + 1) := by
  have h1 : (ts.drop lo).take (hi + 1 - lo) ++ (ts.drop lo).drop (hi + 1 - lo) =
      ts.drop lo := List.take_append_drop _ _
  have h2 : (ts.drop lo).drop (hi + 1 - lo) = ts.drop (hi + 1) := by
    rw [List.drop_drop]
    congr 1
    omega
  rw [List.append_assoc, ← h2, h1, List.take_append_drop]

theorem sortSeg_perm (keys : List ℚ) (ts : List ℕ) (lo hi : ℕ) :
    (sortSeg keys ts lo hi).Perm ts := by
  rw [sortSeg]
  by_cases h : lo ≤ hi ∧ hi < ts.length
  · rw [if_pos h]
    conv_rhs => rw [seg_split ts lo hi h]
    exact List.Perm.append_right _ (List.Perm.append_left _ (insSortIdx_perm keys _))
  · rw [if_neg h]

theorem scanLoop_perm (keys : List ℚ) (vp : ℚ) :
    ∀ (fuel : ℕ) (ts : List ℕ) (pi pj : ℕ),
      (scanLoop keys vp fuel ts pi pj).1.Perm ts := by
  intro fuel
  induction fuel with
  | zero => intro ts pi pj; rfl
  | succ fuel ih =>
    intro ts pi pj
    rw [scanLoop]
    by_cases h : walkDown keys ts vp (ts.length + 2) pj ≤ walkUp keys ts vp (ts.length + 2) pi
    · rw [if_pos h]
    · rw [if_neg h]
      exact (ih _ _ _).trans (idxSwap_perm ts _ _)

theorem condSwap_perm (ts u : List ℕ) (c : Prop) [Decidable c] (i j : ℕ)
    (h : u.Perm ts) : (if c then idxSwap u i j else u).Perm ts := by
  split
  · exact (idxSwap_perm u i j).trans h
  · exact h

theorem npPartition_perm (keys : List ℚ) (ts : List ℕ) (lo hi : ℕ) :
    (npPartition keys ts lo hi).1.Perm ts := by
  rw [npPartition]
  refine (idxSwap_perm _ _ _).trans ((scanLoop_perm keys _ _ _ _ _).trans
    ((idxSwap_perm _ _ _).trans ?_))
  exact condSwap_perm ts _ _ _ _ (condSwap_perm ts _ _ _ _
    (condSwap_perm ts _ _ _ _ (List.Perm.refl ts)))

theorem siftDown_perm (keys : List ℚ) (base : ℕ) :
    ∀ (fuel : ℕ) (ts : List ℕ) (i n : ℕ), (siftDown keys base fuel ts i n).Perm ts := by
  intro fuel
  induction fuel with
  | zero => intro ts i n; rfl
  | succ fuel ih =>
    intro ts i n
    rw [siftDown]
    split
    · split
      · exact (ih _ _ _).trans (idxSwap_perm _ _ _)
      · rfl
    · rfl

theorem heapLoop1_perm (keys : List ℚ) (base n : ℕ) :
    ∀ (fuel : ℕ) (ts : List ℕ) (l : ℕ), (heapLoop1 keys base n fuel ts l).Perm ts := by
  intro fuel
  induction fuel with
  | zero => intro ts l; rfl
  | succ fuel ih =>
    intro ts l
    rw [heapLoop1]
    split
    · rfl
    · exact (ih _ _).trans (siftDown_perm keys base _ ts l n)

theorem heapLoop2_perm (keys : List ℚ) (base : ℕ) :
    ∀ (fuel : ℕ) (ts : List ℕ) (n : ℕ), (heapLoop2 keys base fuel ts n).Perm ts := by
  intro fuel
  induction fuel with
  | zero => intro ts n; rfl
  | succ fuel ih =>
    intro ts n
    rw [heapLoop2]
    split
    · rfl
    · exact (ih _ _).trans ((siftDown_perm keys base _ _ 1 (n - 1)).trans
        (idxSwap_perm ts _ _))

theorem npHeapsortSeg_perm (keys : List ℚ) (ts : List ℕ) (lo hi : ℕ) :
    (npHeapsortSeg keys ts lo hi).Perm ts := by
  rw [npHeapsortSeg]
  split
  · exact (heapLoop2_perm keys lo _ _ _).trans (heapLoop1_perm keys lo _ _ ts _)
  · rfl

theorem aqsortRec_perm (keys : List ℚ) :
    ∀ (fuel cdepth : ℕ) (ts : List ℕ) (lo hi : ℕ),
      (aqsortRec keys fuel cdepth ts lo hi).Perm ts := by
  intro fuel
  induction fuel with
  | zero => intro cdepth ts lo hi; rfl
  | succ fuel ih =>
    intro cdepth ts lo hi
    rw [aqsortRec]
    split
    · rfl
    · split
      · split
        · exact npHeapsortSeg_perm keys ts lo hi
        · exact (ih _ _ _ _).trans ((ih _ _ _ _).trans (npPartition_perm keys ts lo hi))
      · exact sortSeg_perm keys ts lo hi

theorem np_aquicksort_perm (keys : List ℚ) :
    (np_aquicksort keys).Perm (List.range keys.length) := by
  rw [np_aquicksort]
  exact aqsortRec_perm keys _ _ _ 0 (keys.length - 1)

theorem revRange_getD (n j : ℕ) (h : j < n) :
    ((List.range n).reverse).getD j 0 = n - 1 - j := by
  have hlen : j < (List.range n).reverse.length := by simpa using h
  rw [List.getD_eq_getElem _ _ hlen, List.getElem_reverse]
  simp

/-- Reversing `range n` is the same as complementing each entry. -/
theorem map_compl_range (n : ℕ) :
    (List.range n).map (fun j => n - 1 - j) = (List.range n).reverse := by
  induction n with
  | zero => rfl
  | succ n ih =>
    have hmap : (List.range n).map (fun j => n - j) =
        ((List.range n).map (fun j => n - 1 - j)).map (fun m => m + 1) := by
      rw [List.map_map]
      refine List.map_congr_left ?_
      intro j hj
      have : j < n := List.mem_range.1 hj
      simp only [Function.comp_apply]
      omega
    calc (List.range (n + 1)).map (fun j => n + 1 - 1 - j)
        = (0 :: (List.range n).map (fun j => j + 1)).map (fun j => n - j) := by
          rw [List.range_succ_eq_map]
          simp
      _ = (n - 0) :: ((List.range n).map (fun j => j + 1)).map (fun j => n - j) := by
          rw [List.map_cons]
      _ = n :: (List.range n).map (fun j => n - (j + 1)) := by
          rw [List.map_map]; rfl
      _ = n :: (List.range n).map (fun j => n - 1 - j) := by
          congr 1
          refine List.map_congr_left ?_
          intro j hj
          omega
      _ = n :: (List.range n).reverse := by rw [ih]
      _ = (List.range (n + 1)).reverse := by
          rw [List.range_succ, List.reverse_append]
          rfl

theorem filterMap_getElem_range (l : List (Row × ℚ)) :
    (List.range l.length).filterMap (fun i => l[i]?) = l := by
  induction l with
  | nil => rfl
  | cons a t ih =>
    rw [List.length_cons, List.range_succ_eq_map, List.filterMap_cons]
    simp only [List.getElem?_cons_zero]
    rw [List.filterMap_map]
    have hco : ((fun i => (a :: t)[i]?) ∘ fun j => j + 1) = (fun i => t[i]?) := by
      funext i
      simp
    rw [hco, ih]

/-- The descending sort is a permutation of its input: no row is dropped
or duplicated, on every path of the introsort. -/
theorem sort_values_desc_perm (l : List (Row × ℚ)) :
    (sort_values_desc l).Perm l := by
  rw [sort_values_desc]
  set n := l.length with hn
  have hidx : (((np_aquicksort ((l.map Prod.snd).reverse)).map
      (fun j => ((List.range n).reverse).getD j 0)).reverse).Perm (List.range n) := by
    have hkeylen : ((l.map Prod.snd).reverse).length = n := by simp [hn]
    have h1 : (np_aquicksort ((l.map Prod.snd).reverse)).Perm (List.range n) := by
      have := np_aquicksort_perm ((l.map Prod.snd).reverse)
      rwa [hkeylen] at this
    have h2 : ((np_aquicksort ((l.map Prod.snd).reverse)).map
        (fun j => ((List.range n).reverse).getD j 0)).Perm
        ((List.range n).map (fun j => ((List.range n).reverse).getD j 0)) :=
      h1.map _
    have h3 : (List.range n).map (fun j => ((List.range n).reverse).getD j 0) =
        (List.range n).reverse := by
      have hcg : (List.range n).map (fun j => ((List.range n).reverse).getD j 0) =
          (List.range n).map (fun j => n - 1 - j) :=
        List.map_congr_left (fun j hj => revRange_getD n j (List.mem_range.1 hj))
      rw [hcg, map_compl_range]
    refine (List.reverse_perm _).trans (h2.trans ?_)
    rw [h3]
    exact List.reverse_perm _
  refine (hidx.filterMap (fun i => l[i]?)).trans ?_
  rw [hn, filterMap_getElem_range]

theorem mem_sort_values_desc (a : Row × ℚ) (l : List (Row × ℚ)) :
    a ∈ sort_values_desc l ↔ a ∈ l :=
  (sort_values_desc_perm l).mem_iff

theorem insAfterEq_sorted (keys : List ℚ) (vi : ℕ) (l : List ℕ)
    (h : l.Pairwise (fun a b => keyAt keys a ≤ keyAt keys b)) :
    (insAfterEq keys vi l).Pairwise (fun a b => keyAt keys a ≤ keyAt keys b) := by
  induction l with
  | nil => simp [insAfterEq]
  | cons j js ih =>
    rw [insAfterEq]
    rcases List.pairwise_cons.1 h with ⟨hj, hjs⟩
    by_cases hc : npLT (keyAt keys vi) (keyAt keys j) = true
    · rw [if_pos hc]
      refine List.pairwise_cons.2 ⟨?_, h⟩
      intro b hb
      have hvj : keyAt keys vi ≤ keyAt keys j :=
        le_of_lt (by simpa [npLT] using hc)
      rcases List.mem_cons.1 hb with rfl | hb
      · exact hvj
      · exact le_trans hvj (hj b hb)
    · rw [if_neg hc]
      have hjv : keyAt keys j ≤ keyAt keys vi := by
        simp only [npLT, decide_eq_true_eq] at hc
        exact le_of_not_lt hc
      refine List.pairwise_cons.2 ⟨?_, ih hjs⟩
      intro b hb
      have hb' : b ∈ vi :: js := (insAfterEq_perm keys vi js).mem_iff.1 hb
      rcases List.mem_cons.1 hb' with rfl | hb'
      · exact hjv
      · exact hj b hb'

theorem foldl_insAfterEq_sorted (keys : List ℚ) :
    ∀ (ts acc : List ℕ), acc.Pairwise (fun a b => keyAt keys a ≤ keyAt keys b) →
      (ts.foldl (fun a vi => insAfterEq keys vi a) acc).Pairwise
        (fun a b => keyAt keys a ≤ keyAt keys b) := by
  intro ts
  induction ts with
  | nil => exact fun acc h => h
  | cons i tl ih =>
    intro acc h
    rw [List.foldl_cons]
    exact ih _ (insAfterEq_sorted keys i acc h)

/-- numpy's insertion sort orders the indices by non-decreasing key. -/
theorem insSortIdx_sorted (keys : List ℚ) (ts : List ℕ) :
    (insSortIdx keys ts).Pairwise (fun a b => keyAt keys a ≤ keyAt keys b) :=
  foldl_insAfterEq_sorted keys ts [] (by simp)

theorem insAfterEq_filter (keys : List ℚ) (s : ℚ) (vi : ℕ) (l : List ℕ)
    (h : l.Pairwise (fun a b => keyAt keys a ≤ keyAt keys b)) :
    (insAfterEq keys vi l).filter (fun i => decide (keyAt keys i = s)) =
      l.filter (fun i => decide (keyAt keys i = s)) ++
        (if keyAt keys vi = s then [vi] else []) := by
  induction l with
  | nil =>
    rw [insAfterEq]
    by_cases hv : keyAt keys vi = s <;> simp [hv]
  | cons j js ih =>
    rw [insAfterEq]
    rcases List.pairwise_cons.1 h with ⟨hj, hjs⟩
    by_cases hc : npLT (keyAt keys vi) (keyAt keys j) = true
    · rw [if_pos hc]
      have hlt : keyAt keys vi < keyAt keys j := by simpa [npLT] using hc
      by_cases hv : keyAt keys vi = s
      · have hnone : ∀ b ∈ j :: js, ¬ (keyAt keys b = s) := by
          intro b hb he
          rcases List.mem_cons.1 hb with rfl | hb
          · exact absurd he (ne_of_gt (hv ▸ hlt))
          · have h2 : keyAt keys j ≤ keyAt keys b := hj b hb
            have h3 : s < keyAt keys b := lt_of_lt_of_le (hv ▸ hlt) h2
            exact absurd he (ne_of_gt h3)
        have hfe : (j :: js).filter (fun i => decide (keyAt keys i = s)) = [] := by
          rw [List.filter_eq_nil]
          intro a ha
          simpa using hnone a ha
        simp [List.filter_cons, hv, hfe, hnone j (List.mem_cons_self j js),
          fun b hb => hnone b (List.mem_cons_of_mem j hb)]
      · simp [List.filter_cons, hv]
    · rw [if_neg hc]
      rw [List.filter_cons, List.filter_cons, ih hjs]
      by_cases hb : keyAt keys j = s <;> simp [hb]

theorem foldl_insAfterEq_filter (keys : List ℚ) (s : ℚ) :
    ∀ (ts acc : List ℕ), acc.Pairwise (fun a b => keyAt keys a ≤ keyAt keys b) →
      (ts.foldl (fun a vi => insAfterEq keys vi a) acc).filter
          (fun i => decide (keyAt keys i = s)) =
        acc.filter (fun i => decide (keyAt keys i = s)) ++
          ts.filter (fun i => decide (keyAt keys i = s)) := by
  intro ts
  induction ts with
  | nil => intro acc _; simp
  | cons i tl ih =>
    intro acc h
    rw [List.foldl_cons, ih _ (insAfterEq_sorted keys i acc h),
      insAfterEq_filter keys s i acc h, List.filter_cons]
    by_cases hv : keyAt keys i = s <;> simp [hv]

/-- numpy's insertion sort is stable: the indices of any fixed key keep
their input order. -/
theorem insSortIdx_filter (keys : List ℚ) (ts : List ℕ) (s : ℚ) :
    (insSortIdx keys ts).filter (fun i => decide (keyAt keys i = s)) =
      ts.filter (fun i => decide (keyAt keys i = s)) := by
  have := foldl_insAfterEq_filter keys s ts [] (by simp)
  simpa [insSortIdx] using this

/-- On at most 16 keys — `(pr - pl) > SMALL_QUICKSORT` fails — numpy's
quicksort is exactly its insertion sort of the whole index range. -/
theorem np_aquicksort_small (keys : List ℚ) (h : keys.length ≤ 16) :
    np_aquicksort keys = insSortIdx keys (List.range keys.length) := by
  rw [np_aquicksort, aqsortRec]
  rcases Nat.eq_zero_or_pos keys.length with h0 | hpos
  · rw [h0]
    simp [insSortIdx]
  · rcases Nat.lt_or_ge keys.length 2 with h2 | h2
    · have h1 : keys.length = 1 := by omega
      rw [h1]
      have hr : List.range 1 = [0] := rfl
      rw [hr]
      simp [insSortIdx, insAfterEq]
    · rw [if_neg (by omega : ¬ (keys.length - 1 ≤ 0)),
        if_neg (by omega : ¬ (15 < keys.length - 1 - 0)), sortSeg,
        if_pos (by simp [List.length_range]; omega :
          0 ≤ keys.length - 1 ∧ keys.length - 1 < (List.range keys.length).length)]
      have hs : keys.length - 1 + 1 = keys.length := by omega
      simp only [hs, List.drop_zero, Nat.sub_zero, List.take_nil, List.take_zero,
        List.nil_append]
      rw [List.take_of_length_le (by simp), List.drop_eq_nil_of_le (by simp),
        List.append_nil]

/-- A throwaway row used only as the (never consulted) `getD` default. -/
def dRow : Row := ⟨none, none, none, "", none, none, none, none, none⟩

theorem filterMap_eq_map_getD (ts : List ℕ) (l : List (Row × ℚ))
    (h : ∀ i ∈ ts, i < l.length) :
    ts.filterMap (fun i => l[i]?) = ts.map (fun i => l.getD i (dRow, 0)) := by
  induction ts with
  | nil => rfl
  | cons i tl ih =>
    rw [List.filterMap_cons, List.map_cons]
    have hi : i < l.length := h i (List.mem_cons_self i tl)
    rw [List.getElem?_eq_getElem hi, List.getD_eq_getElem l (dRow, 0) hi]
    rw [ih (fun a ha => h a (List.mem_cons_of_mem i ha))]

theorem map_getD_range (l : List (Row × ℚ)) :
    (List.range l.length).map (fun i => l.getD i (dRow, 0)) = l := by
  rw [← filterMap_eq_map_getD _ l (fun i hi => List.mem_range.1 hi),
    filterMap_getElem_range]

/-- The key the argsort compares at position `j` is the score of the row at
input position `n - 1 - j` (the column is reversed for a descending
sort). -/
theorem keyAt_rev_map_snd (l : List (Row × ℚ)) (j : ℕ) (hj : j < l.length) :
    keyAt ((l.map Prod.snd).reverse) j = (l.getD (l.length - 1 - j) (dRow, 0)).2 := by
  have hlen : j < ((l.map Prod.snd).reverse).length := by simpa using hj
  rw [keyAt, List.getD_eq_getElem _ _ hlen, List.getElem_reverse]
  have hidx : (l.map Prod.snd).length - 1 - j < l.length := by
    simp only [List.length_map]
    omega
  rw [List.getElem_map]
  have hlt : l.length - 1 - j < l.length := by omega
  rw [List.getD_eq_getElem l (dRow, 0) hlt]
  congr 1
  simp

/-- On a frame of at most 16 rows the descending sort is non-increasing in
the continuous score (numpy's insertion-sort regime). -/
theorem sort_values_desc_sorted_small (l : List (Row × ℚ)) (h : l.length ≤ 16) :
    (sort_values_desc l).Pairwise (fun a b => b.2 ≤ a.2) := by
  rw [sort_values_desc]
  have hkl : ((l.map Prod.snd).reverse).length = l.length := by simp
  have hsmall : np_aquicksort ((l.map Prod.snd).reverse) =
      insSortIdx ((l.map Prod.snd).reverse) (List.range l.length) := by
    rw [np_aquicksort_small _ (by rw [hkl]; exact h), hkl]
  rw [hsmall]
  have hOmem : ∀ j ∈ insSortIdx ((l.map Prod.snd).reverse) (List.range l.length),
      j < l.length := by
    intro j hj
    exact List.mem_range.1 ((insSortIdx_perm _ _).mem_iff.1 hj)
  have hmapc : (insSortIdx ((l.map Prod.snd).reverse) (List.range l.length)).map
        (fun j => ((List.range l.length).reverse).getD j 0) =
      (insSortIdx ((l.map Prod.snd).reverse) (List.range l.length)).map
        (fun j => l.length - 1 - j) :=
    List.map_congr_left (fun j hj => revRange_getD l.length j (hOmem j hj))
  rw [hmapc]
  have hMmem : ∀ i ∈ ((insSortIdx ((l.map Prod.snd).reverse)
      (List.range l.length)).map (fun j => l.length - 1 - j)).reverse, i < l.length := by
    intro i hi
    rw [List.mem_reverse] at hi
    rcases List.mem_map.1 hi with ⟨j, hj, rfl⟩
    have := hOmem j hj
    omega
  rw [filterMap_eq_map_getD _ l hMmem]
  rw [List.pairwise_map, List.pairwise_reverse, List.pairwise_map]
  refine (insSortIdx_sorted ((l.map Prod.snd).reverse) (List.range l.length)).imp_of_mem ?_
  intro a b ha hb hab
  have hka := keyAt_rev_map_snd l a (hOmem a ha)
  have hkb := keyAt_rev_map_snd l b (hOmem b hb)
  show (l.getD (l.length - 1 - a) (dRow, 0)).2 ≤ (l.getD (l.length - 1 - b) (dRow, 0)).2
  rw [← hka, ← hkb]
  exact hab

/-- On a frame of at most 16 rows the descending sort is stable: the rows
carrying any fixed continuous score keep their input order. -/
theorem filter_sort_values_desc_small (l : List (Row × ℚ)) (h : l.length ≤ 16) (s : ℚ) :
    (sort_values_desc l).filter (fun z => decide (z.2 = s)) =
      l.filter (fun z => decide (z.2 = s)) := by
  rw [sort_values_desc]
  have hkl : ((l.map Prod.snd).reverse).length = l.length := by simp
  have hsmall : np_aquicksort ((l.map Prod.snd).reverse) =
      insSortIdx ((l.map Prod.snd).reverse) (List.range l.length) := by
    rw [np_aquicksort_small _ (by rw [hkl]; exact h), hkl]
  rw [hsmall]
  have hOmem : ∀ j ∈ insSortIdx ((l.map Prod.snd).reverse) (List.range l.length),
      j < l.length := by
    intro j hj
    exact List.mem_range.1 ((insSortIdx_perm _ _).mem_iff.1 hj)
  have hmapc : (insSortIdx ((l.map Prod.snd).reverse) (List.range l.length)).map
        (fun j => ((List.range l.length).reverse).getD j 0) =
      (insSortIdx ((l.map Prod.snd).reverse) (List.range l.length)).map
        (fun j => l.length - 1 - j) :=
    List.map_congr_left (fun j hj => revRange_getD l.length j (hOmem j hj))
  rw [hmapc]
  have hMmem : ∀ i ∈ ((insSortIdx ((l.map Prod.snd).reverse)
      (List.range l.length)).map (fun j => l.length - 1 - j)).reverse, i < l.length := by
    intro i hi
    rw [List.mem_reverse] at hi
    rcases List.mem_map.1 hi with ⟨j, hj, rfl⟩
    have := hOmem j hj
    omega
  rw [filterMap_eq_map_getD _ l hMmem]
  rw [List.filter_map, List.filter_reverse, List.filter_map]
  have hc1 : (insSortIdx ((l.map Prod.snd).reverse) (List.range l.length)).filter
        (((fun z => decide (z.2 = s)) ∘ fun i => l.getD i (dRow, 0)) ∘
          fun j => l.length - 1 - j) =
      (insSortIdx ((l.map Prod.snd).reverse) (List.range l.length)).filter
        (fun j => decide (keyAt ((l.map Prod.snd).reverse) j = s)) := by
    refine List.filter_congr ?_
    intro j hj
    simp only [Function.comp_apply]
    rw [keyAt_rev_map_snd l j (hOmem j hj)]
  rw [hc1, insSortIdx_filter]
  have hc2 : (List.range l.length).filter
        (fun j => decide (keyAt ((l.map Prod.snd).reverse) j = s)) =
      (List.range l.length).filter
        (((fun z => decide (z.2 = s)) ∘ fun i => l.getD i (dRow, 0)) ∘
          fun j => l.length - 1 - j) := by
    refine List.filter_congr ?_
    intro j hj
    simp only [Function.comp_apply]
    rw [keyAt_rev_map_snd l j (List.mem_range.1 hj)]
  rw [hc2, ← List.filter_map, map_compl_range, List.filter_reverse,
    List.reverse_reverse]
  conv_rhs => rw [← map_getD_range l, List.filter_map]

/-- The descending sort of a two-element frame whose second row scores
strictly higher swaps the two rows. -/
theorem sort_values_desc_pair (a b : Row × ℚ) (hab : a.2 < b.2) :
    sort_values_desc [a, b] = [b, a] := by
  have hlt : npLT (keyAt [b.2, a.2] 1) (keyAt [b.2, a.2] 0) = true := by
    have h1 : keyAt [b.2, a.2] 1 = a.2 := rfl
    have h0 : keyAt [b.2, a.2] 0 = b.2 := rfl
    rw [h1, h0, npLT, decide_eq_true_eq]
    exact hab
  have hq : np_aquicksort [b.2, a.2] = [1, 0] := by
    rw [np_aquicksort_small _ (by simp)]
    have hr : List.range ([b.2, a.2] : List ℚ).length = [0, 1] := rfl
    rw [hr, insSortIdx, List.foldl_cons, List.foldl_cons, List.foldl_nil,
      insAfterEq, insAfterEq, if_pos hlt]
  have hsv : sort_values_desc [a, b] =
      (((np_aquicksort [b.2, a.2]).map
        (fun j => (([1, 0] : List ℕ)).getD j 0)).reverse).filterMap
        (fun i => ([a, b] : List (Row × ℚ))[i]?) := rfl
  rw [hsv, hq]
  rfl

theorem log2_17 : Nat.log2 17 = 4 := by
  rw [Nat.log2]
  norm_num
  rw [Nat.log2]
  norm_num
  rw [Nat.log2]
  norm_num
  rw [Nat.log2]
  norm_num
  rw [Nat.log2]
  norm_num

/-! ## Helper lemmas: weights -/

/-- Number of goals in a list that match a criterion's keyword group. -/
def matchCount (c : Criterion) (gs : List String) : ℕ :=
  (gs.filter (fun g => goalMatches c g)).length

theorem weight_shape (w : WeightDict)
    (h : w.map Prod.fst = ["price", "performance", "battery", "screen"]) :
    ∃ a b c d : ℚ, w = [("price", a), ("performance", b), ("battery", c), ("screen", d)] := by
  rcases w with _ | ⟨⟨k1, v1⟩, _ | ⟨⟨k2, v2⟩, _ | ⟨⟨k3, v3⟩, _ | ⟨⟨k4, v4⟩, _ | ⟨kv5, tl⟩⟩⟩⟩⟩
  · simp at h
  · simp at h
  · simp at h
  · simp at h
  · simp only [List.map_cons, List.map_nil, List.cons.injEq, and_true] at h
    obtain ⟨rfl, rfl, rfl, rfl⟩ := h
    exact ⟨v1, v2, v3, v4, rfl⟩
  · simp at h

theorem bump_shape_perf (a b c d δ : ℚ) :
    bump [("price", a), ("performance", b), ("battery", c), ("screen", d)] "performance" δ =
      [("price", a), ("performance", b + δ), ("battery", c), ("screen", d)] := rfl

theorem bump_shape_batt (a b c d δ : ℚ) :
    bump [("price", a), ("performance", b), ("battery", c), ("screen", d)] "battery" δ =
      [("price", a), ("performance", b), ("battery", c + δ), ("screen", d)] := rfl

theorem bump_shape_price (a b c d δ : ℚ) :
    bump [("price", a), ("performance", b), ("battery", c), ("screen", d)] "price" δ =
      [("price", a + δ), ("performance", b), ("battery", c), ("screen", d)] := rfl

theorem bump_shape_screen (a b c d δ : ℚ) :
    bump [("price", a), ("performance", b), ("battery", c), ("screen", d)] "screen" δ =
      [("price", a), ("performance", b), ("battery", c), ("screen", d + δ)] := rfl

/-- The loop body bumps each criterion at most once per goal: its effect on
an explicit weight dictionary. -/
theorem goalBumps_shape (a b c d : ℚ) (g : String) :
    goalBumps [("price", a), ("performance", b), ("battery", c), ("screen", d)] g =
      [("price", if goalMatches .price g then a + 15/100 else a),
       ("performance", if goalMatches .performance g then b + 15/100 else b),
       ("battery", if goalMatches .battery g then c + 15/100 else c),
       ("screen", if goalMatches .screen g then d + 15/100 else d)] := by
  cases h1 : goalMatches .performance g <;> cases h2 : goalMatches .battery g <;>
    cases h3 : goalMatches .price g <;> cases h4 : goalMatches .screen g <;>
    simp [goalBumps, h1, h2, h3, h4, bump_shape_perf, bump_shape_batt,
      bump_shape_price, bump_shape_screen]

/-- Accumulated effect of all goal bumps on an explicit weight dictionary:
each criterion gains `0.15` once per matching goal. -/
theorem foldl_goalBumps_shape (gs : List String) (a b c d : ℚ) :
    List.foldl goalBumps [("price", a), ("performance", b), ("battery", c), ("screen", d)] gs =
      [("price", a + 15/100 * matchCount .price gs),
       ("performance", b + 15/100 * matchCount .performance gs),
       ("battery", c + 15/100 * matchCount .battery gs),
       ("screen", d + 15/100 * matchCount .screen gs)] := by
  induction gs generalizing a b c d with
  | nil => simp [matchCount]
  | cons g gs ih =>
    rw [List.foldl_cons, goalBumps_shape, ih]
    simp only [matchCount, List.filter_cons]
    cases hp : goalMatches .price g <;> cases hf : goalMatches .performance g <;>
      cases hb : goalMatches .battery g <;> cases hs : goalMatches .screen g <;>
      simp [hp, hf, hb, hs] <;> push_cast <;> ring_nf <;> simp [add_comm, add_assoc, add_left_comm]

/-- The base weights in explicit form for the laptop/tablet/phone branch. -/
theorem baseWeights_portable (cat : String) (h : cat ∈ ["laptop", "tablet", "phone"]) :
    baseWeights cat =
      [("price", 30/100), ("performance", 40/100), ("battery", 30/100), ("screen", 0)] := by
  rw [baseWeights, if_pos h]

/-- The base weights in explicit form for the `else` (monitor) branch. -/
theorem baseWeights_monitor (cat : String) (h : cat ∉ ["laptop", "tablet", "phone"]) :
    baseWeights cat =
      [("price", 40/100), ("performance", 10/100), ("battery", 0), ("screen", 50/100)] := by
  rw [baseWeights, if_neg h]

/-- The pre-normalization weights in explicit form. -/
theorem preWeights_shape (goals : List String) (cat : String) :
    ∃ a b c d : ℚ,
      preWeights goals cat = [("price", a), ("performance", b), ("battery", c), ("screen", d)] ∧
      0 ≤ a ∧ 0 ≤ b ∧ 0 ≤ c ∧ 0 ≤ d ∧ 1 ≤ a + b + c + d := by
  rw [preWeights]
  have hp : (0:ℚ) ≤ (matchCount .price goals : ℚ) := Nat.cast_nonneg _
  have hf : (0:ℚ) ≤ (matchCount .performance goals : ℚ) := Nat.cast_nonneg _
  have hb : (0:ℚ) ≤ (matchCount .battery goals : ℚ) := Nat.cast_nonneg _
  have hs : (0:ℚ) ≤ (matchCount .screen goals : ℚ) := Nat.cast_nonneg _
  by_cases hcat : cat ∈ ["laptop", "tablet", "phone"]
  · rw [baseWeights_portable cat hcat, foldl_goalBumps_shape]
    exact ⟨_, _, _, _, rfl, by linarith, by linarith, by linarith, by linarith, by linarith⟩
  · rw [baseWeights_monitor cat hcat, foldl_goalBumps_shape]
    exact ⟨_, _, _, _, rfl, by linarith, by linarith, by linarith, by linarith, by linarith⟩

/-- Per-criterion value of the pre-normalization weights: the base weight
plus `0.15` for every matching goal. -/
theorem preWeights_getW (goals : List String) (cat : String) (cr : Criterion) :
    getW (preWeights goals cat) (critName cr) =
      getW (baseWeights cat) (critName cr) + 15/100 * matchCount cr goals := by
  rw [preWeights]
  by_cases hcat : cat ∈ ["laptop", "tablet", "phone"]
  · rw [baseWeights_portable cat hcat, foldl_goalBumps_shape]
    cases cr <;> rfl
  · rw [baseWeights_monitor cat hcat, foldl_goalBumps_shape]
    cases cr <;> rfl

/-- `_compute_weights` always takes the renormalization branch and returns
an explicit four-entry dictionary of non-negative weights with sum 1. -/
theorem computeWeights_shape (intent : PyDict) (cat : String) :
    ∃ a b c d : ℚ,
      _compute_weights intent cat =
        [("price", a), ("performance", b), ("battery", c), ("screen", d)] ∧
      0 ≤ a ∧ 0 ≤ b ∧ 0 ≤ c ∧ 0 ≤ d ∧ a + b + c + d = 1 := by
  rw [_compute_weights]
  rcases preWeights_shape (pyGoals intent true) cat with ⟨a, b, c, d, hw, ha, hb, hc, hd, hsum⟩
  rw [hw]
  have htot : (([("price", a), ("performance", b), ("battery", c), ("screen", d)].map
      Prod.snd).sum) = a + b + c + d := by simp [add_assoc]
  rw [htot]
  have hpos : (0:ℚ) < a + b + c + d := by linarith
  rw [if_neg (not_le.2 hpos)]
  have hne : a + b + c + d ≠ 0 := ne_of_gt hpos
  refine ⟨a / (a+b+c+d), b / (a+b+c+d), c / (a+b+c+d), d / (a+b+c+d), by simp, ?_, ?_, ?_, ?_, ?_⟩
  · exact div_nonneg ha (le_of_lt hpos)
  · exact div_nonneg hb (le_of_lt hpos)
  · exact div_nonneg hc (le_of_lt hpos)
  · exact div_nonneg hd (le_of_lt hpos)
  · field_simp

theorem getW_shape_price (a b c d : ℚ) :
    getW [("price", a), ("performance", b), ("battery", c), ("screen", d)] "price" = a := rfl

theorem getW_shape_perf (a b c d : ℚ) :
    getW [("price", a), ("performance", b), ("battery", c), ("screen", d)] "performance" = b := rfl

theorem getW_shape_batt (a b c d : ℚ) :
    getW [("price", a), ("performance", b), ("battery", c), ("screen", d)] "battery" = c := rfl

theorem getW_shape_screen (a b c d : ℚ) :
    getW [("price", a), ("performance", b), ("battery", c), ("screen", d)] "screen" = d := rfl

/-! ## Helper lemmas: feature series and scores -/

theorem mem_zipWith (f : ℚ → ℚ → ℚ) (as bs : List ℚ) (v : ℚ)
    (hv : v ∈ List.zipWith f as bs) : ∃ a ∈ as, ∃ b ∈ bs, v = f a b := by
  induction as generalizing bs with
  | nil => cases hv
  | cons a as ih =>
    rcases bs with _ | ⟨b, bs⟩
    · cases hv
    · rcases List.mem_cons.1 hv with rfl | hv
      · exact ⟨a, List.mem_cons_self a as, b, List.mem_cons_self b bs, rfl⟩
      · rcases ih bs hv with ⟨a', ha', b', hb', rfl⟩
        exact ⟨a', List.mem_cons_of_mem a ha', b', List.mem_cons_of_mem b hb', rfl⟩

theorem mem_zipWith4 (f : ℚ → ℚ → ℚ → ℚ → ℚ) (as bs cs ds : List ℚ) (v : ℚ)
    (hv : v ∈ zipWith4 f as bs cs ds) :
    ∃ a ∈ as, ∃ b ∈ bs, ∃ c ∈ cs, ∃ d ∈ ds, v = f a b c d := by
  induction as generalizing bs cs ds with
  | nil => cases hv
  | cons a as ih =>
    rcases bs with _ | ⟨b, bs⟩
    · cases hv
    rcases cs with _ | ⟨c, cs⟩
    · cases hv
    rcases ds with _ | ⟨d, ds⟩
    · cases hv
    rcases List.mem_cons.1 hv with rfl | hv
    · exact ⟨a, List.mem_cons_self a as, b, List.mem_cons_self b bs,
        c, List.mem_cons_self c cs, d, List.mem_cons_self d ds, rfl⟩
    · rcases ih bs cs ds hv with ⟨a', ha', b', hb', c', hc', d', hd', rfl⟩
      exact ⟨a', List.mem_cons_of_mem a ha', b', List.mem_cons_of_mem b hb',
        c', List.mem_cons_of_mem c hc', d', List.mem_cons_of_mem d hd', rfl⟩

theorem zipWith4_getElem (f : ℚ → ℚ → ℚ → ℚ → ℚ) (as bs cs ds : List ℚ) (i : ℕ)
    (a b c d : ℚ) (ha : as[i]? = some a) (hb : bs[i]? = some b)
    (hc : cs[i]? = some c) (hd : ds[i]? = some d) :
    (zipWith4 f as bs cs ds)[i]? = some (f a b c d) := by
  induction as generalizing bs cs ds i with
  | nil => cases ha
  | cons x as ih =>
    rcases bs with _ | ⟨y, bs⟩; · cases hb
    rcases cs with _ | ⟨z, cs⟩; · cases hc
    rcases ds with _ | ⟨w, ds⟩; · cases hd
    rcases i with _ | i
    · simp only [List.getElem?_cons_zero, Option.some_inj] at ha hb hc hd
      subst ha; subst hb; subst hc; subst hd
      rw [zipWith4]
      simp
    · simp only [List.getElem?_cons_succ] at ha hb hc hd
      rw [zipWith4]
      simp only [List.getElem?_cons_succ]
      exact ih bs cs ds i ha hb hc hd

theorem neutralSeries_bounds (df : PDF) : ∀ v ∈ neutralSeries df, 0 ≤ v ∧ v ≤ 1 := by
  intro v hv
  rcases List.mem_map.1 hv with ⟨r, _, rfl⟩
  norm_num

theorem priceSeries_bounds (df : PDF) : ∀ v ∈ priceSeries df, 0 ≤ v ∧ v ≤ 1 := by
  intro v hv
  rw [priceSeries] at hv
  by_cases h : df.flags.has_price = true
  · rw [if_pos h] at hv; exact normalize_mem_bounds _ _ v hv
  · rw [if_neg h] at hv; exact neutralSeries_bounds df v hv

theorem perfSeries_bounds (df : PDF) (cat : String) :
    ∀ v ∈ perfSeries df cat, 0 ≤ v ∧ v ≤ 1 := by
  intro v hv
  rw [perfSeries] at hv
  by_cases h : cat ∈ ["laptop", "tablet", "phone"]
  · rw [if_pos h] at hv
    rcases mem_zipWith _ _ _ v hv with ⟨a, ha, b, hb, rfl⟩
    have hab : (0 ≤ a ∧ a ≤ 1) ∧ (0 ≤ b ∧ b ≤ 1) := by
      constructor
      · by_cases hr : df.flags.has_ram = true
        · rw [if_pos hr] at ha; exact normalize_mem_bounds _ _ a ha
        · rw [if_neg hr] at ha; exact neutralSeries_bounds df a ha
      · by_cases hs : df.flags.has_storage = true
        · rw [if_pos hs] at hb; exact normalize_mem_bounds _ _ b hb
        · rw [if_neg hs] at hb; exact neutralSeries_bounds df b hb
    constructor <;> [linarith [hab.1.1, hab.2.1]; linarith [hab.1.2, hab.2.2]]
  · rw [if_neg h] at hv; exact neutralSeries_bounds df v hv

theorem batterySeries_bounds (df : PDF) : ∀ v ∈ batterySeries df, 0 ≤ v ∧ v ≤ 1 := by
  intro v hv
  rw [batterySeries] at hv
  by_cases h : df.flags.has_battery = true
  · rw [if_pos h] at hv; exact normalize_mem_bounds _ _ v hv
  · rw [if_neg h] at hv; exact neutralSeries_bounds df v hv

theorem screenSeries_bounds (df : PDF) : ∀ v ∈ screenSeries df, 0 ≤ v ∧ v ≤ 1 := by
  intro v hv
  rw [screenSeries] at hv
  by_cases h : df.flags.has_screen = true
  · rw [if_pos h] at hv; exact normalize_mem_bounds _ _ v hv
  · rw [if_neg h] at hv; exact neutralSeries_bounds df v hv

/-- A weighted combination of four values in `[0,1]` under non-negative
weights of sum 1 stays in `[0,1]`. -/
theorem weighted_sum_bounds (wa wb wc wd p f b s : ℚ)
    (hwa : 0 ≤ wa) (hwb : 0 ≤ wb) (hwc : 0 ≤ wc) (hwd : 0 ≤ wd)
    (hsum : wa + wb + wc + wd = 1)
    (hp : 0 ≤ p ∧ p ≤ 1) (hf : 0 ≤ f ∧ f ≤ 1) (hb : 0 ≤ b ∧ b ≤ 1) (hs : 0 ≤ s ∧ s ≤ 1) :
    0 ≤ wa * p + wb * f + wc * b + wd * s ∧ wa * p + wb * f + wc * b + wd * s ≤ 1 := by
  have h1 : wa * p ≤ wa := mul_le_of_le_one_right hwa hp.2
  have h2 : wb * f ≤ wb := mul_le_of_le_one_right hwb hf.2
  have h3 : wc * b ≤ wc := mul_le_of_le_one_right hwc hb.2
  have h4 : wd * s ≤ wd := mul_le_of_le_one_right hwd hs.2
  have h5 : 0 ≤ wa * p := mul_nonneg hwa hp.1
  have h6 : 0 ≤ wb * f := mul_nonneg hwb hf.1
  have h7 : 0 ≤ wc * b := mul_nonneg hwc hb.1
  have h8 : 0 ≤ wd * s := mul_nonneg hwd hs.1
  constructor <;> linarith

/-- Every continuous score is in `[0,1]`. -/
theorem scoreSeries_bounds (intent : PyDict) (df : PDF) :
    ∀ v ∈ scoreSeries intent df, 0 ≤ v ∧ v ≤ 1 := by
  intro v hv
  rcases computeWeights_shape intent (rankCategory df) with
    ⟨a, b, c, d, hw, ha, hb, hc, hd, hsum⟩
  rw [scoreSeries, hw] at hv
  rcases mem_zipWith4 _ _ _ _ _ v hv with ⟨p, hp, f, hf, bb, hbb, s, hs, rfl⟩
  rw [getW_shape_price, getW_shape_perf, getW_shape_batt, getW_shape_screen]
  exact weighted_sum_bounds a b c d p f bb s ha hb hc hd hsum
    (priceSeries_bounds df p hp) (perfSeries_bounds df _ f hf)
    (batterySeries_bounds df bb hbb) (screenSeries_bounds df s hs)

theorem neutralSeries_length (df : PDF) : (neutralSeries df).length = df.rows.length := by
  simp [neutralSeries]

theorem priceSeries_length (df : PDF) : (priceSeries df).length = df.rows.length := by
  rw [priceSeries]
  by_cases h : df.flags.has_price = true
  · rw [if_pos h, normalize_length]; simp
  · rw [if_neg h, neutralSeries_length]

theorem perfSeries_length (df : PDF) (cat : String) :
    (perfSeries df cat).length = df.rows.length := by
  rw [perfSeries]
  by_cases h : cat ∈ ["laptop", "tablet", "phone"]
  · rw [if_pos h, List.length_zipWith]
    by_cases hr : df.flags.has_ram = true <;> by_cases hs : df.flags.has_storage = true <;>
      simp [hr, hs, normalize_length, neutralSeries_length]
  · rw [if_neg h, neutralSeries_length]

theorem batterySeries_length (df : PDF) : (batterySeries df).length = df.rows.length := by
  rw [batterySeries]
  by_cases h : df.flags.has_battery = true
  · rw [if_pos h, normalize_length]; simp
  · rw [if_neg h, neutralSeries_length]

theorem screenSeries_length (df : PDF) : (screenSeries df).length = df.rows.length := by
  rw [screenSeries]
  by_cases h : df.flags.has_screen = true
  · rw [if_pos h, normalize_length]; simp
  · rw [if_neg h, neutralSeries_length]

theorem zipWith4_length (f : ℚ → ℚ → ℚ → ℚ → ℚ) (as bs cs ds : List ℚ) (n : ℕ)
    (ha : as.length = n) (hb : bs.length = n) (hc : cs.length = n) (hd : ds.length = n) :
    (zipWith4 f as bs cs ds).length = n := by
  induction as generalizing bs cs ds n with
  | nil => rw [← ha]; cases bs <;> cases cs <;> cases ds <;> rfl
  | cons a as ih =>
    rcases n with _ | n
    · cases ha
    rcases bs with _ | ⟨b, bs⟩; · cases hb
    rcases cs with _ | ⟨c, cs⟩; · cases hc
    rcases ds with _ | ⟨d, ds⟩; · cases hd
    rw [zipWith4, List.length_cons]
    rw [ih bs cs ds n (by simpa using ha) (by simpa using hb) (by simpa using hc)
      (by simpa using hd)]

theorem scoreSeries_length (intent : PyDict) (df : PDF) :
    (scoreSeries intent df).length = df.rows.length := by
  rw [scoreSeries]
  exact zipWith4_length _ _ _ _ _ _ (priceSeries_length df) (perfSeries_length df _)
    (batterySeries_length df) (screenSeries_length df)

theorem scoredRows_length (intent : PyDict) (df : PDF) :
    (scoredRows intent df).length = df.rows.length := by
  rw [scoredRows, List.length_zip, scoreSeries_length, min_self]

/-- The score component of a scored row is a member of the score series. -/
theorem scoredRows_snd_mem (intent : PyDict) (df : PDF) (rc : Row × ℚ)
    (h : rc ∈ scoredRows intent df) : rc.2 ∈ scoreSeries intent df := by
  rw [scoredRows] at h
  rcases rc with ⟨r, q⟩
  exact (List.of_mem_zip h).2

/-- Unfolding of `rank_products` on a non-empty frame. -/
theorem rank_products_eq (intent : PyDict) (df : PDF) (explain : ExplainFn)
    (h : df.rows ≠ []) :
    rank_products intent (some df) explain =
      { results := (sort_values_desc (scoredRows intent df)).map
          (mkItem (rankCategory df) (pyGoals intent false) explain)
        category := some (rankCategory df)
        weights := _compute_weights intent (rankCategory df) } := by
  rw [rank_products]
  have he : df.rows.isEmpty = false := by
    rcases hr : df.rows with _ | ⟨r, rs⟩
    · exact absurd hr h
    · rfl
  rw [he]
  rfl

/-! ## Helper lemmas: the catalog filter -/

theorem condFilter_subset (value : Option ℚ) (flag : Bool) (pred : ℚ → Row → Bool)
    (l : List Row) (r : Row) (hr : r ∈ condFilter value flag pred l) : r ∈ l := by
  rcases value with _ | v
  · exact hr
  · rw [condFilter] at hr
    by_cases hf : flag = true
    · rw [if_pos hf] at hr; exact List.mem_of_mem_filter hr
    · rw [if_neg hf] at hr; exact hr

theorem numFiltered_subset (catalog : PDF) (intent : PyDict) (q : String) (r : Row)
    (hr : r ∈ numFiltered catalog intent q) :
    r ∈ categoryRows catalog (detect_category intent q) := by
  rw [numFiltered] at hr
  exact condFilter_subset _ _ _ _ r
    (condFilter_subset _ _ _ _ r (condFilter_subset _ _ _ _ r (condFilter_subset _ _ _ _ r hr)))

theorem categoryRows_mem (catalog : PDF) (c : String) (r : Row)
    (hr : r ∈ categoryRows catalog c) : r.category = c := by
  rw [categoryRows] at hr
  have := List.of_mem_filter hr
  exact eq_of_beq this

theorem filter_products_of_empty (catalog : PDF) (intent : PyDict) (q : String)
    (h : numFiltered catalog intent q = []) :
    (filter_products catalog intent q).rows =
      categoryRows catalog (detect_category intent q) := by
  rw [filter_products]
  rw [h]
  rfl

theorem filter_products_of_nonempty (catalog : PDF) (intent : PyDict) (q : String)
    (h : numFiltered catalog intent q ≠ []) :
    (filter_products catalog intent q).rows = numFiltered catalog intent q := by
  rw [filter_products]
  have he : (numFiltered catalog intent q).isEmpty = false := by
    rcases hr : numFiltered catalog intent q with _ | ⟨r, rs⟩
    · exact absurd hr h
    · rfl
  rw [he]
  rfl

/-! ## Concrete data used by counterexamples and witnesses -/

/-- The $850 / 16 GB laptop of the spec's filtering test. -/
def laptop850 : Row :=
  ⟨some "A", some "Laptop A", none, "laptop", some 850, some 16, some 512, some 56, some 14⟩

/-- The $950 / 32 GB laptop of the spec's filtering test. -/
def laptop950 : Row :=
  ⟨some "B", some "Laptop B", none, "laptop", some 950, some 32, some 1024, some 70, some 16⟩

/-- A catalog holding exactly the two laptops, all numeric columns present. -/
def twoLaptopCatalog : PDF := ⟨⟨true, true, true, true, true⟩, [laptop850, laptop950]⟩

/-- The intent exactly as the spec (and the intent agent's documented JSON
schema) writes it: category, budget_usd, and a nested hard_constraints
object. -/
def specIntent : PyDict :=
  [("category", .str "laptop"), ("budget_usd", .num 900),
   ("hard_constraints", .dict [("min_ram_gb", .num 16)])]

/-- The same constraints under the key aliases `filter_products` actually
reads: a top-level `budget` and a top-level `min_ram_gb`. -/
def keyedIntent : PyDict :=
  [("category", .str "laptop"), ("budget", .num 900), ("min_ram_gb", .num 16)]

/-! ## Claims -/

/-- C8: for every intent and explanation collaborator, `rank_products` on an
absent (`None`) or empty product set returns exactly
`{results: [], category: None, weights: {}}` without raising. -/
theorem claim_C8 (intent : PyDict) (flags : ColFlags) (explain : ExplainFn) :
    rank_products intent none explain =
      { results := [], category := none, weights := [] } ∧
    rank_products intent (some ⟨flags, []⟩) explain =
      { results := [], category := none, weights := [] } :=
  ⟨rfl, rfl⟩

/-- C7: for every intent, query and catalog, if the numeric filters
(budget, min RAM, min storage, min battery) empty the category-matching
rows, `filter_products` falls back to the full category-matching set; and
every row it ever returns carries the resolved category. -/
theorem claim_C7 (catalog : PDF) (intent : PyDict) (q : String) :
    (numFiltered catalog intent q = [] →
      (filter_products catalog intent q).rows =
        categoryRows catalog (detect_category intent q)) ∧
    ∀ r ∈ (filter_products catalog intent q).rows,
      r.category = detect_category intent q := by
  constructor
  · exact filter_products_of_empty catalog intent q
  · intro r hr
    by_cases h : numFiltered catalog intent q = []
    · rw [filter_products_of_empty catalog intent q h] at hr
      exact categoryRows_mem _ _ r hr
    · rw [filter_products_of_nonempty catalog intent q h] at hr
      exact categoryRows_mem _ _ r (numFiltered_subset _ _ _ r hr)

/-- An over-constrained intent: a budget below every laptop's price. -/
def tightIntent : PyDict := [("budget", .num 100)]

/-- Witness for C7 at a concrete over-constrained input: the numeric filters
empty the frame and the category-only fallback returns both laptops. -/
theorem claim_C7_witness :
    numFiltered twoLaptopCatalog tightIntent "a cheap laptop" = [] ∧
    (filter_products twoLaptopCatalog tightIntent "a cheap laptop").rows =
      categoryRows twoLaptopCatalog (detect_category tightIntent "a cheap laptop") ∧
    (filter_products twoLaptopCatalog tightIntent "a cheap laptop").rows =
      [laptop850, laptop950] :=
  ⟨by decide, (claim_C7 twoLaptopCatalog tightIntent "a cheap laptop").1 (by decide), by decide⟩

/-- C1 (the code evaluated at the failing input): with the Intent Record
exactly as the spec states it — `category="laptop"`, `budget_usd=900`,
`hard_constraints` holding `min_ram_gb=16` — `filter_products` returns BOTH
laptops, not only the $850 one: `_get_float` probes the keys
budget_max/max_price/budget/price_cap (never `budget_usd`) and looks for
`min_ram_gb` only at the top level of the intent (never inside
`hard_constraints`), so neither numeric filter fires.  The second conjunct
shows that the very same constraints under the aliases the code does read
produce the claimed single result, isolating the key-wiring slip. -/
theorem claim_C1_code_bug :
    (filter_products twoLaptopCatalog specIntent "").rows = [laptop850, laptop950] ∧
    (filter_products twoLaptopCatalog keyedIntent "").rows = [laptop850] :=
  ⟨by decide, by decide⟩

/-- C3: for every intent whose goal field Python can iterate (absent, null,
a bare string, a list, an object, or a falsy value) and every category
string, the Weight Set of `_compute_weights` has exactly the four criteria
price, performance, battery, screen in order, every weight is non-negative,
the weights sum to exactly 1, and — defensively — a non-positive
pre-normalization total would instead yield the equal split 0.25 per
criterion. -/
theorem claim_C3 (intent : PyDict) (category : String) (_hg : goalsOK intent = true) :
    (_compute_weights intent category).map Prod.fst =
      ["price", "performance", "battery", "screen"] ∧
    (∀ kv ∈ _compute_weights intent category, 0 ≤ kv.2) ∧
    ((_compute_weights intent category).map Prod.snd).sum = 1 ∧
    (((preWeights (pyGoals intent true) category).map Prod.snd).sum ≤ 0 →
      _compute_weights intent category =
        (preWeights (pyGoals intent true) category).map (fun kv => (kv.1, (1 : ℚ)/4))) := by
  rcases computeWeights_shape intent category with ⟨a, b, c, d, hw, ha, hb, hc, hd, hsum⟩
  refine ⟨?_, ?_, ?_, ?_⟩
  · rw [hw]; rfl
  · intro kv hkv
    rw [hw] at hkv
    simp only [List.mem_cons, List.not_mem_nil, or_false] at hkv
    rcases hkv with rfl | rfl | rfl | rfl <;> assumption
  · rw [hw]; simp; linarith
  · intro htot
    rcases preWeights_shape (pyGoals intent true) category with
      ⟨pa, pb, pc, pd, hpw, _, _, _, _, _⟩
    rw [_compute_weights, if_pos htot, hpw]
    norm_num

/-- Witness for C3 at a concrete intent: the empty intent and category
"laptop" give the base weights renormalized (already summing to 1). -/
theorem claim_C3_witness :
    goalsOK [] = true ∧
    (_compute_weights [] "laptop").map Prod.fst =
      ["price", "performance", "battery", "screen"] ∧
    ((_compute_weights [] "laptop").map Prod.snd).sum = 1 :=
  ⟨rfl, (claim_C3 [] "laptop" rfl).1, (claim_C3 [] "laptop" rfl).2.2.1⟩

/-- C6: the Weight Resolver's base weights are price 0.30 / performance
0.40 / battery 0.30 / screen 0.00 for laptop, phone and tablet, and price
0.40 / performance 0.10 / battery 0.00 / screen 0.50 for the else branch
(monitor); and before renormalization each criterion's weight is its base
weight plus exactly 0.15 per goal matching its keyword group (bumps
accumulate additively and uncapped), matching on the lowercased goals. -/
theorem claim_C6 (goals : List String) (category : String) (cr : Criterion) :
    (category ∈ ["laptop", "tablet", "phone"] →
      baseWeights category =
        [("price", 30/100), ("performance", 40/100), ("battery", 30/100), ("screen", 0)]) ∧
    (category ∉ ["laptop", "tablet", "phone"] →
      baseWeights category =
        [("price", 40/100), ("performance", 10/100), ("battery", 0), ("screen", 50/100)]) ∧
    getW (preWeights goals category) (critName cr) =
      getW (baseWeights category) (critName cr) + 15/100 * matchCount cr goals :=
  ⟨baseWeights_portable category, baseWeights_monitor category,
    preWeights_getW goals category cr⟩

/-- Witness for C6 at concrete inputs: the two base tables, and the goal
list ["cheap", "budget gaming"] bumping price twice (uncapped) on a laptop. -/
theorem claim_C6_witness :
    baseWeights "laptop" =
      [("price", 30/100), ("performance", 40/100), ("battery", 30/100), ("screen", 0)] ∧
    baseWeights "monitor" =
      [("price", 40/100), ("performance", 10/100), ("battery", 0), ("screen", 50/100)] ∧
    matchCount .price ["cheap", "budget gaming"] = 2 ∧
    getW (preWeights ["cheap", "budget gaming"] "laptop") (critName .price) =
      getW (baseWeights "laptop") (critName .price) +
        15/100 * matchCount .price ["cheap", "budget gaming"] :=
  ⟨(claim_C6 [] "laptop" .price).1 (by decide),
   (claim_C6 [] "monitor" .price).2.1 (by decide),
   by decide,
   (claim_C6 ["cheap", "budget gaming"] "laptop" .price).2.2⟩

/-- C10: within a single goal string each criterion is bumped at most once —
the pre-normalization weight of a criterion after one goal is its base plus
0.15 if the goal matches the group (no matter how many synonyms of the group
the goal contains) and unchanged otherwise.  Concretely: the one goal
"battery all day" (two battery synonyms) raises battery from 0.30 to only
0.45, while the one goal "cheap gaming" raises both price (to 0.45) and
performance (to 0.55) by 0.15 each. -/
theorem claim_C10 (category g : String) (cr : Criterion) :
    (getW (preWeights [g] category) (critName cr) =
      getW (baseWeights category) (critName cr) +
        (if goalMatches cr g then 15/100 else 0)) ∧
    getW (preWeights ["battery all day"] "laptop") "battery" = 30/100 + 15/100 ∧
    getW (preWeights ["cheap gaming"] "laptop") "price" = 30/100 + 15/100 ∧
    getW (preWeights ["cheap gaming"] "laptop") "performance" = 40/100 + 15/100 := by
  refine ⟨?_, ?_, ?_, ?_⟩
  · rw [preWeights_getW]
    rcases h : goalMatches cr g <;> simp [matchCount, h]
  · have h := preWeights_getW ["battery all day"] "laptop" .battery
    rw [show critName .battery = "battery" from rfl] at h
    rw [h, baseWeights_portable "laptop" (by decide), getW_shape_batt,
      show matchCount .battery ["battery all day"] = 1 from by decide]
    norm_num
  · have h := preWeights_getW ["cheap gaming"] "laptop" .price
    rw [show critName .price = "price" from rfl] at h
    rw [h, baseWeights_portable "laptop" (by decide), getW_shape_price,
      show matchCount .price ["cheap gaming"] = 1 from by decide]
    norm_num
  · have h := preWeights_getW ["cheap gaming"] "laptop" .performance
    rw [show critName .performance = "performance" from rfl] at h
    rw [h, baseWeights_portable "laptop" (by decide), getW_shape_perf,
      show matchCount .performance ["cheap gaming"] = 1 from by decide]
    norm_num

/-- When `math.isclose(min, max)` holds, `_normalize_series` returns 0.5
everywhere. -/
theorem normalize_eq_close (col : List (Option ℚ)) (hib : Bool) (mn mx : ℚ)
    (hlo : seriesLo col = some mn) (hhi : seriesHi col = some mx)
    (hc : pyIsClose mn mx = true) :
    _normalize_series col hib = col.map (fun _ => (1 : ℚ)/2) := by
  rcases seriesLo_cases col mn hlo with ⟨x, xs, hu, hmn⟩
  rcases seriesHi_cases col mx hhi with ⟨x', xs', hu', hmx⟩
  rw [hu] at hu'
  cases hu'
  rw [normalize_eq_cons col hib x xs hu, ← hmn, ← hmx, if_pos (by rw [hc])]

/-- C4 (amended): `_normalize_series` always produces values in [0,1]; if
every value is unusable it returns 0.5 everywhere; and writing mn/mx for the
min/max of the usable values, it returns 0.5 everywhere whenever
`math.isclose(mn, mx)` (not only when mn = mx), and otherwise maps each
unusable entry to exactly 0.5 and each usable entry x to (x−mn)/(mx−mn),
inverted to 1−(x−mn)/(mx−mn) when `higher_is_better` is false. -/
theorem claim_C4_amended (col : List (Option ℚ)) (hib : Bool) :
    (∀ v ∈ _normalize_series col hib, 0 ≤ v ∧ v ≤ 1) ∧
    (usableVals col = [] → _normalize_series col hib = col.map (fun _ => (1 : ℚ)/2)) ∧
    (∀ mn mx : ℚ, seriesLo col = some mn → seriesHi col = some mx →
      (pyIsClose mn mx = true →
        _normalize_series col hib = col.map (fun _ => (1 : ℚ)/2)) ∧
      (pyIsClose mn mx = false → ∀ i : ℕ,
        (_normalize_series col hib)[i]? = (col[i]?).map (fun v =>
          match v with
          | none => (1 : ℚ)/2
          | some t => if hib then (t - mn) / (mx - mn)
                      else 1 - (t - mn) / (mx - mn)))) := by
  refine ⟨normalize_mem_bounds col hib, normalize_eq_nil col hib, ?_⟩
  intro mn mx hlo hhi
  exact ⟨normalize_eq_close col hib mn mx hlo hhi,
    fun hnc i => normalize_entry col hib mn mx hlo hhi hnc i⟩

/-- Witness for C4 (amended) at the column [1, NaN, 3] with
`higher_is_better = true`: min 1 and max 3 are not close, the usable
entries normalize to 0 and 1, the NaN entry gets 0.5. -/
theorem claim_C4_witness :
    seriesLo [some 1, none, some 3] = some 1 ∧
    seriesHi [some 1, none, some 3] = some 3 ∧
    pyIsClose 1 3 = false ∧
    (_normalize_series [some 1, none, some 3] true)[0]? =
      some ((1 - 1) / (3 - 1) : ℚ) ∧
    (_normalize_series [some 1, none, some 3] true)[1]? = some ((1 : ℚ)/2) := by
  have hlo : seriesLo [some 1, none, some 3] = some 1 := by
    rw [seriesLo_eq_cons [some 1, none, some 3] 1 [3] (by decide)]
    simp [min_def]
  have hhi : seriesHi [some 1, none, some 3] = some 3 := by
    rw [seriesHi_eq_cons [some 1, none, some 3] 1 [3] (by decide)]
    simp [max_def]
  have hnc : pyIsClose 1 3 = false := by norm_num [pyIsClose, abs_of_nonpos, max_def]
  refine ⟨hlo, hhi, hnc, ?_, ?_⟩
  · rw [(claim_C4_amended [some 1, none, some 3] true).2.2 1 3 hlo hhi |>.2 hnc 0]
    rfl
  · rw [(claim_C4_amended [some 1, none, some 3] true).2.2 1 3 hlo hhi |>.2 hnc 1]
    rfl

/-- C4 counterexample to the claim as stated: on the column holding the two
usable values 10^9 and 10^9 + 1 the minimum differs from the maximum, yet
the code's guard `math.isclose(min, max)` (relative tolerance 1e-9) is true,
so every entry receives 0.5 — not the (x−min)/(max−min) values 0 and 1 the
claim prescribes for the "min ≠ max" case. -/
theorem claim_C4_counterexample :
    seriesLo [some 1000000000, some 1000000001] = some 1000000000 ∧
    seriesHi [some 1000000000, some 1000000001] = some 1000000001 ∧
    (1000000000 : ℚ) ≠ 1000000001 ∧
    pyIsClose 1000000000 1000000001 = true ∧
    _normalize_series [some 1000000000, some 1000000001] true = [1/2, 1/2] ∧
    ((1000000000 : ℚ) - 1000000000) / (1000000001 - 1000000000) = 0 ∧
    ((1000000001 : ℚ) - 1000000000) / (1000000001 - 1000000000) = 1 ∧
    ((1 : ℚ)/2 ≠ 0) ∧ ((1 : ℚ)/2 ≠ 1) := by
  have hu : usableVals [some 1000000000, some 1000000001] =
      [(1000000000 : ℚ), 1000000001] := by decide
  have hlo : seriesLo [some 1000000000, some 1000000001] = some 1000000000 := by
    rw [seriesLo_eq_cons _ _ _ hu]
    simp [min_def]
    norm_num
  have hhi : seriesHi [some 1000000000, some 1000000001] = some 1000000001 := by
    rw [seriesHi_eq_cons _ _ _ hu]
    simp [max_def]
    norm_num
  have hcl : pyIsClose 1000000000 1000000001 = true := by
    norm_num [pyIsClose, abs_of_nonpos, max_def]
  refine ⟨hlo, hhi, by norm_num, hcl, ?_, by norm_num, by norm_num, by norm_num, by norm_num⟩
  rw [normalize_eq_close _ true _ _ hlo hhi hcl]
  rfl

/-- Python round of a value in [0, 100] lands in [0, 100]. -/
theorem pyRound_bounds (x : ℚ) (h0 : 0 ≤ x) (h1 : x ≤ 100) :
    0 ≤ pyRound x ∧ pyRound x ≤ 100 := by
  have hfl : (⌊x⌋ : ℚ) ≤ x := Int.floor_le x
  have hf0 : 0 ≤ ⌊x⌋ := Int.floor_nonneg.2 h0
  have hf100 : ⌊x⌋ ≤ 100 := by
    have := Int.floor_le_floor h1
    simpa using this
  rw [pyRound]
  by_cases hlt : x - ⌊x⌋ < 1/2
  · rw [if_pos hlt]
    exact ⟨hf0, hf100⟩
  · rw [if_neg hlt]
    have hhalf : (1:ℚ)/2 ≤ x - ⌊x⌋ := le_of_not_lt hlt
    have hf99 : ⌊x⌋ ≤ 99 := by
      have hq : (⌊x⌋ : ℚ) ≤ x - 1/2 := by linarith
      have hq2 : (⌊x⌋ : ℚ) < 100 := by linarith
      have : ⌊x⌋ < 100 := by exact_mod_cast hq2
      omega
    by_cases hgt : x - ⌊x⌋ > 1/2
    · rw [if_pos hgt]
      constructor <;> omega
    · rw [if_neg hgt]
      by_cases hev : Even ⌊x⌋
      · rw [if_pos hev]; exact ⟨hf0, hf100⟩
      · rw [if_neg hev]; constructor <;> omega

/-- C2 (amended): for every intent, every non-empty frame and every
explanation collaborator, the `results` of `rank_products` are exactly the
scored rows in `sort_values_desc` order, and that order is a permutation of
the input rows; when the frame has at most 16 rows — numpy's quicksort runs
its insertion sort, which is stable — the order is moreover non-increasing
in the continuous score and rows with any given continuous score keep their
input (catalog) relative order.  On larger frames the partitioning
quicksort may reorder exact ties, so tie stability is not guaranteed by the
program. -/
theorem claim_C2_amended (intent : PyDict) (df : PDF) (explain : ExplainFn)
    (hne : df.rows ≠ []) (_hg : goalsOK intent = true) :
    (rank_products intent (some df) explain).results =
      (sort_values_desc (scoredRows intent df)).map
        (mkItem (rankCategory df) (pyGoals intent false) explain) ∧
    (sort_values_desc (scoredRows intent df)).Perm (scoredRows intent df) ∧
    (df.rows.length ≤ 16 →
      (sort_values_desc (scoredRows intent df)).Pairwise (fun a b => b.2 ≤ a.2) ∧
      ∀ s : ℚ, (sort_values_desc (scoredRows intent df)).filter
          (fun z => decide (z.2 = s)) =
        (scoredRows intent df).filter (fun z => decide (z.2 = s))) := by
  refine ⟨?_, sort_values_desc_perm _, fun h16 => ?_⟩
  · rw [rank_products_eq intent df explain hne]
  · have hl16 : (scoredRows intent df).length ≤ 16 := by
      rw [scoredRows_length]
      exact h16
    exact ⟨sort_values_desc_sorted_small _ hl16,
      fun s => filter_sort_values_desc_small _ hl16 s⟩

/-- The score column of the two-laptop frame under the empty intent:
price ranks the $850 laptop first, everything else ranks the $950 one
first, giving 0.3 and 0.7 under the laptop base weights. -/
theorem twoLaptop_scoreSeries :
    scoreSeries [] twoLaptopCatalog = [3/10, 7/10] := by
  have hw : _compute_weights [] "laptop" =
      [("price", 3/10), ("performance", 2/5), ("battery", 3/10), ("screen", 0)] := by
    norm_num [_compute_weights, preWeights, pyGoals, baseWeights, pdGet, pyFalsy, getW,
      List.find?_cons, List.find?_nil]
  have hcat : rankCategory twoLaptopCatalog = "laptop" := by decide
  have hp : priceSeries twoLaptopCatalog = [1, 0] := by
    simp only [priceSeries, twoLaptopCatalog, laptop850, laptop950]
    norm_num [_normalize_series, usableVals, List.filterMap_cons, pyIsClose, min_def, max_def]
  have hf : perfSeries twoLaptopCatalog "laptop" = [0, 1] := by
    simp only [perfSeries, twoLaptopCatalog, laptop850, laptop950]
    norm_num [_normalize_series, usableVals, List.filterMap_cons, pyIsClose, min_def, max_def]
  have hb : batterySeries twoLaptopCatalog = [0, 1] := by
    simp only [batterySeries, twoLaptopCatalog, laptop850, laptop950]
    norm_num [_normalize_series, usableVals, List.filterMap_cons, pyIsClose, min_def, max_def]
  have hs : screenSeries twoLaptopCatalog = [0, 1] := by
    simp only [screenSeries, twoLaptopCatalog, laptop850, laptop950]
    norm_num [_normalize_series, usableVals, List.filterMap_cons, pyIsClose, min_def, max_def]
  rw [scoreSeries, hcat, hw, hp, hf, hb, hs]
  have h1 : getW [("price", (3:ℚ)/10), ("performance", 2/5), ("battery", 3/10), ("screen", 0)]
      "price" = 3/10 := rfl
  have h2 : getW [("price", (3:ℚ)/10), ("performance", 2/5), ("battery", 3/10), ("screen", 0)]
      "performance" = 2/5 := rfl
  have h3 : getW [("price", (3:ℚ)/10), ("performance", 2/5), ("battery", 3/10), ("screen", 0)]
      "battery" = 3/10 := rfl
  have h4 : getW [("price", (3:ℚ)/10), ("performance", 2/5), ("battery", 3/10), ("screen", 0)]
      "screen" = 0 := rfl
  simp only [zipWith4, h1, h2, h3, h4]
  norm_num

/-- The two-laptop frame sorted by score: the $950 laptop (score 0.7)
first. -/
theorem twoLaptop_sorted :
    sort_values_desc (scoredRows [] twoLaptopCatalog) =
      [(laptop950, 7/10), (laptop850, 3/10)] := by
  have hz : scoredRows [] twoLaptopCatalog =
      [(laptop850, 3/10), (laptop950, 7/10)] := by
    rw [scoredRows, twoLaptop_scoreSeries]
    rfl
  rw [hz]
  refine sort_values_desc_pair _ _ ?_
  norm_num

/-- Witness for C2 at the two-laptop frame (two rows, well inside the
insertion-sort regime): the non-increasing order of the produced ranking,
concretely. -/
theorem claim_C2_witness :
    twoLaptopCatalog.rows ≠ [] ∧ twoLaptopCatalog.rows.length ≤ 16 ∧
    (sort_values_desc (scoredRows [] twoLaptopCatalog)).Pairwise
      (fun a b => b.2 ≤ a.2) ∧
    sort_values_desc (scoredRows [] twoLaptopCatalog) =
      [(laptop950, 7/10), (laptop850, 3/10)] :=
  ⟨by decide, by decide,
   ((claim_C2_amended [] twoLaptopCatalog (fun _ _ _ _ => .ok "fine")
       (by decide) rfl).2.2 (by decide)).1,
   twoLaptop_sorted⟩

/-- One of seventeen otherwise-identical catalog rows: a distinct id, the
laptop category and no numeric data at all. -/
def df17Row (s : String) : Row := ⟨some s, none, none, "laptop", none, none, none, none, none⟩

/-- A 17-row frame of such rows: every feature column is neutral, so all 17
continuous scores tie at 1/2, and 17 rows push numpy's quicksort past its
16-element insertion-sort threshold into the partitioning path. -/
def df17 : PDF :=
  ⟨⟨false, false, false, false, false⟩,
   ["a","b","c","d","e","f","g","h","i","j","k","l","m","n","o","p","q"].map df17Row⟩

/-- Every row of the 17-row frame scores exactly 1/2 under the empty
intent. -/
theorem df17_scoreSeries : scoreSeries [] df17 = [mkRat 1 2, mkRat 1 2, mkRat 1 2, mkRat 1 2, mkRat 1 2, mkRat 1 2, mkRat 1 2, mkRat 1 2, mkRat 1 2, mkRat 1 2, mkRat 1 2, mkRat 1 2, mkRat 1 2, mkRat 1 2, mkRat 1 2, mkRat 1 2, mkRat 1 2] := by
  have hw : _compute_weights [] "laptop" =
      [("price", 3/10), ("performance", 2/5), ("battery", 3/10), ("screen", 0)] := by
    norm_num [_compute_weights, preWeights, pyGoals, baseWeights, pdGet, pyFalsy, getW,
      List.find?_cons, List.find?_nil]
  have hcat : rankCategory df17 = "laptop" := rfl
  rw [scoreSeries, hcat, hw]
  have hp : priceSeries df17 = [(1:ℚ)/2, (1:ℚ)/2, (1:ℚ)/2, (1:ℚ)/2, (1:ℚ)/2, (1:ℚ)/2, (1:ℚ)/2, (1:ℚ)/2, (1:ℚ)/2, (1:ℚ)/2, (1:ℚ)/2, (1:ℚ)/2, (1:ℚ)/2, (1:ℚ)/2, (1:ℚ)/2, (1:ℚ)/2, (1:ℚ)/2] := rfl
  have hf : perfSeries df17 "laptop" = [(7:ℚ)/10 * (1/2) + 3/10 * (1/2), (7:ℚ)/10 * (1/2) + 3/10 * (1/2), (7:ℚ)/10 * (1/2) + 3/10 * (1/2), (7:ℚ)/10 * (1/2) + 3/10 * (1/2), (7:ℚ)/10 * (1/2) + 3/10 * (1/2), (7:ℚ)/10 * (1/2) + 3/10 * (1/2), (7:ℚ)/10 * (1/2) + 3/10 * (1/2), (7:ℚ)/10 * (1/2) + 3/10 * (1/2), (7:ℚ)/10 * (1/2) + 3/10 * (1/2), (7:ℚ)/10 * (1/2) + 3/10 * (1/2), (7:ℚ)/10 * (1/2) + 3/10 * (1/2), (7:ℚ)/10 * (1/2) + 3/10 * (1/2), (7:ℚ)/10 * (1/2) + 3/10 * (1/2), (7:ℚ)/10 * (1/2) + 3/10 * (1/2), (7:ℚ)/10 * (1/2) + 3/10 * (1/2), (7:ℚ)/10 * (1/2) + 3/10 * (1/2), (7:ℚ)/10 * (1/2) + 3/10 * (1/2)] := rfl
  have hb : batterySeries df17 = [(1:ℚ)/2, (1:ℚ)/2, (1:ℚ)/2, (1:ℚ)/2, (1:ℚ)/2, (1:ℚ)/2, (1:ℚ)/2, (1:ℚ)/2, (1:ℚ)/2, (1:ℚ)/2, (1:ℚ)/2, (1:ℚ)/2, (1:ℚ)/2, (1:ℚ)/2, (1:ℚ)/2, (1:ℚ)/2, (1:ℚ)/2] := rfl
  have hs : screenSeries df17 = [(1:ℚ)/2, (1:ℚ)/2, (1:ℚ)/2, (1:ℚ)/2, (1:ℚ)/2, (1:ℚ)/2, (1:ℚ)/2, (1:ℚ)/2, (1:ℚ)/2, (1:ℚ)/2, (1:ℚ)/2, (1:ℚ)/2, (1:ℚ)/2, (1:ℚ)/2, (1:ℚ)/2, (1:ℚ)/2, (1:ℚ)/2] := rfl
  rw [hp, hf, hb, hs]
  have h1 : getW [("price", (3:ℚ)/10), ("performance", 2/5), ("battery", 3/10), ("screen", 0)]
      "price" = 3/10 := rfl
  have h2 : getW [("price", (3:ℚ)/10), ("performance", 2/5), ("battery", 3/10), ("screen", 0)]
      "performance" = 2/5 := rfl
  have h3 : getW [("price", (3:ℚ)/10), ("performance", 2/5), ("battery", 3/10), ("screen", 0)]
      "battery" = 3/10 := rfl
  have h4 : getW [("price", (3:ℚ)/10), ("performance", 2/5), ("battery", 3/10), ("screen", 0)]
      "screen" = 0 := rfl
  simp only [zipWith4, h1, h2, h3, h4]
  norm_num [Rat.mkRat_eq_div]

/-- The 17-row frame's scored rows: the seventeen rows in catalog order,
each carrying the tied score 1/2. -/
theorem df17_scoredRows :
    scoredRows [] df17 =
      [(df17Row "a", mkRat 1 2),
       (df17Row "b", mkRat 1 2),
       (df17Row "c", mkRat 1 2),
       (df17Row "d", mkRat 1 2),
       (df17Row "e", mkRat 1 2),
       (df17Row "f", mkRat 1 2),
       (df17Row "g", mkRat 1 2),
       (df17Row "h", mkRat 1 2),
       (df17Row "i", mkRat 1 2),
       (df17Row "j", mkRat 1 2),
       (df17Row "k", mkRat 1 2),
       (df17Row "l", mkRat 1 2),
       (df17Row "m", mkRat 1 2),
       (df17Row "n", mkRat 1 2),
       (df17Row "o", mkRat 1 2),
       (df17Row "p", mkRat 1 2),
       (df17Row "q", mkRat 1 2)] := by
  rw [scoredRows, df17_scoreSeries]
  rfl

/-- Counterexample to C2's tie rule: all seventeen rows of `df17` carry the
same continuous score 1/2, yet the descending sort returns them in the
order a, j, p, o, n, m, l, k, i, b, h, g, f, e, d, c, q — not the catalog
order a…q.  Past 16 elements numpy's default quicksort partitions, and the
partition swaps reorder equal keys, so the program does not keep input order
for exact ties. -/
theorem claim_C2_counterexample :
    (scoredRows [] df17).map Prod.snd = List.replicate 17 (mkRat 1 2) ∧
    sort_values_desc (scoredRows [] df17) =
      [(df17Row "a", mkRat 1 2),
       (df17Row "j", mkRat 1 2),
       (df17Row "p", mkRat 1 2),
       (df17Row "o", mkRat 1 2),
       (df17Row "n", mkRat 1 2),
       (df17Row "m", mkRat 1 2),
       (df17Row "l", mkRat 1 2),
       (df17Row "k", mkRat 1 2),
       (df17Row "i", mkRat 1 2),
       (df17Row "b", mkRat 1 2),
       (df17Row "h", mkRat 1 2),
       (df17Row "g", mkRat 1 2),
       (df17Row "f", mkRat 1 2),
       (df17Row "e", mkRat 1 2),
       (df17Row "d", mkRat 1 2),
       (df17Row "c", mkRat 1 2),
       (df17Row "q", mkRat 1 2)] ∧
    sort_values_desc (scoredRows [] df17) ≠ scoredRows [] df17 := by
  have h2 : sort_values_desc (scoredRows [] df17) =
      [(df17Row "a", mkRat 1 2),
       (df17Row "j", mkRat 1 2),
       (df17Row "p", mkRat 1 2),
       (df17Row "o", mkRat 1 2),
       (df17Row "n", mkRat 1 2),
       (df17Row "m", mkRat 1 2),
       (df17Row "l", mkRat 1 2),
       (df17Row "k", mkRat 1 2),
       (df17Row "i", mkRat 1 2),
       (df17Row "b", mkRat 1 2),
       (df17Row "h", mkRat 1 2),
       (df17Row "g", mkRat 1 2),
       (df17Row "f", mkRat 1 2),
       (df17Row "e", mkRat 1 2),
       (df17Row "d", mkRat 1 2),
       (df17Row "c", mkRat 1 2),
       (df17Row "q", mkRat 1 2)] := by
    rw [df17_scoredRows, sort_values_desc]
    have hlen : ((([(df17Row "a", mkRat 1 2),
       (df17Row "b", mkRat 1 2),
       (df17Row "c", mkRat 1 2),
       (df17Row "d", mkRat 1 2),
       (df17Row "e", mkRat 1 2),
       (df17Row "f", mkRat 1 2),
       (df17Row "g", mkRat 1 2),
       (df17Row "h", mkRat 1 2),
       (df17Row "i", mkRat 1 2),
       (df17Row "j", mkRat 1 2),
       (df17Row "k", mkRat 1 2),
       (df17Row "l", mkRat 1 2),
       (df17Row "m", mkRat 1 2),
       (df17Row "n", mkRat 1 2),
       (df17Row "o", mkRat 1 2),
       (df17Row "p", mkRat 1 2),
       (df17Row "q", mkRat 1 2)] : List (Row × ℚ)).map Prod.snd).reverse).length = 17 := by
      simp
    rw [np_aquicksort, hlen, log2_17]
    decide
  refine ⟨by rw [df17_scoredRows]; rfl, h2, ?_⟩
  rw [h2, df17_scoredRows]
  decide

/-- C5: for every intent, non-empty frame and explanation collaborator, the
resolved weights wp/wf/wb/ws are non-negative and sum to 1; each row's
continuous score is exactly the weighted sum of its four feature scores,
each feature score lying in [0,1], so the continuous score lies in [0,1];
and each displayed score is `round(continuous · 100)`, an integer in
[0,100]. -/
theorem claim_C5 (intent : PyDict) (df : PDF) (explain : ExplainFn)
    (hne : df.rows ≠ []) (_hg : goalsOK intent = true) :
    ∃ wp wf wb ws : ℚ,
      _compute_weights intent (rankCategory df) =
        [("price", wp), ("performance", wf), ("battery", wb), ("screen", ws)] ∧
      0 ≤ wp ∧ 0 ≤ wf ∧ 0 ≤ wb ∧ 0 ≤ ws ∧ wp + wf + wb + ws = 1 ∧
      (∀ (i : ℕ) (p f b s : ℚ), (priceSeries df)[i]? = some p →
        (perfSeries df (rankCategory df))[i]? = some f →
        (batterySeries df)[i]? = some b →
        (screenSeries df)[i]? = some s →
        (scoreSeries intent df)[i]? = some (wp * p + wf * f + wb * b + ws * s) ∧
        (0 ≤ p ∧ p ≤ 1) ∧ (0 ≤ f ∧ f ≤ 1) ∧ (0 ≤ b ∧ b ≤ 1) ∧ (0 ≤ s ∧ s ≤ 1)) ∧
      (∀ v ∈ scoreSeries intent df, 0 ≤ v ∧ v ≤ 1) ∧
      ((rank_products intent (some df) explain).results.map (fun it => it.score) =
        (sort_values_desc (scoredRows intent df)).map
          (fun rc => pyRound (rc.2 * 100))) ∧
      (∀ it ∈ (rank_products intent (some df) explain).results,
        0 ≤ it.score ∧ it.score ≤ 100) := by
  rcases computeWeights_shape intent (rankCategory df) with
    ⟨wp, wf, wb, ws, hw, hwp, hwf, hwb, hws, hsum⟩
  have hss : scoreSeries intent df =
      zipWith4 (fun p f b s => wp * p + wf * f + wb * b + ws * s)
        (priceSeries df) (perfSeries df (rankCategory df))
        (batterySeries df) (screenSeries df) := by
    rw [scoreSeries, hw]
    simp only [getW_shape_price, getW_shape_perf, getW_shape_batt, getW_shape_screen]
  refine ⟨wp, wf, wb, ws, hw, hwp, hwf, hwb, hws, hsum, ?_, scoreSeries_bounds intent df,
    ?_, ?_⟩
  · intro i p f b s hp hf hb hs
    refine ⟨?_, ?_, ?_, ?_, ?_⟩
    · rw [hss]
      exact zipWith4_getElem _ _ _ _ _ i p f b s hp hf hb hs
    · exact priceSeries_bounds df p (List.getElem?_mem hp)
    · exact perfSeries_bounds df _ f (List.getElem?_mem hf)
    · exact batterySeries_bounds df b (List.getElem?_mem hb)
    · exact screenSeries_bounds df s (List.getElem?_mem hs)
  · rw [rank_products_eq intent df explain hne]
    simp only [List.map_map]
    rfl
  · intro it hit
    rw [rank_products_eq intent df explain hne] at hit
    rcases List.mem_map.1 hit with ⟨rc, hrc, rfl⟩
    have hsc : 0 ≤ rc.2 ∧ rc.2 ≤ 1 :=
      scoreSeries_bounds intent df rc.2
        (scoredRows_snd_mem intent df rc ((mem_sort_values_desc rc _).1 hrc))
    exact pyRound_bounds (rc.2 * 100) (by linarith [hsc.1]) (by linarith [hsc.2])

/-- Evaluation of Python round on the two concrete display scores. -/
theorem pyRound_70 : pyRound ((7 : ℚ)/10 * 100) = 70 := by
  have h : ((7 : ℚ)/10 * 100) = ((70 : ℤ) : ℚ) := by norm_num
  rw [h, pyRound, Int.floor_intCast]
  norm_num

theorem pyRound_30 : pyRound ((3 : ℚ)/10 * 100) = 30 := by
  have h : ((3 : ℚ)/10 * 100) = ((30 : ℤ) : ℚ) := by norm_num
  rw [h, pyRound, Int.floor_intCast]
  norm_num

/-- Witness for C5 at the two-laptop frame: scores in bounds, displayed
scores 70 and 30. -/
theorem claim_C5_witness :
    twoLaptopCatalog.rows ≠ [] ∧
    (∀ v ∈ scoreSeries [] twoLaptopCatalog, 0 ≤ v ∧ v ≤ 1) ∧
    (rank_products [] (some twoLaptopCatalog) (fun _ _ _ _ => .ok "fine")).results.map
      (fun it => it.score) = [70, 30] := by
  rcases claim_C5 [] twoLaptopCatalog (fun _ _ _ _ => .ok "fine") (by decide) rfl with
    ⟨wp, wf, wb, ws, _, _, _, _, _, _, _, hbounds, hmap, _⟩
  refine ⟨by decide, hbounds, ?_⟩
  rw [hmap, twoLaptop_sorted]
  simp only [List.map_cons, List.map_nil]
  rw [pyRound_70, pyRound_30]

/-- The placeholder produced for a failed explanation call is never the
empty string. -/
theorem placeholder_ne_empty (e : String) :
    "(Could not generate explanation: " ++ e ++ ")" ≠ "" := by
  intro h
  have h2 := congrArg String.length h
  rw [String.length_append, String.length_append] at h2
  rw [show ("(Could not generate explanation: ").length = 33 from rfl] at h2
  rw [show (")" : String).length = 1 from rfl] at h2
  rw [show ("" : String).length = 0 from rfl] at h2
  omega

/-- C9: the projection of every ranked item to (id, title, score) — its
identity and rank — is the same no matter what the explanation collaborator
does, so a failing call never drops, reorders, or rescores any item; an item
whose call raises `e` still appears with the non-empty placeholder
"(Could not generate explanation: e)", and items whose calls succeed keep
their generated text. -/
theorem claim_C9 (intent : PyDict) (df : PDF) (explain explain2 : ExplainFn)
    (hne : df.rows ≠ []) (_hg : goalsOK intent = true) :
    ((rank_products intent (some df) explain).results.map
        (fun it => (it.id, it.title, it.score)) =
      (rank_products intent (some df) explain2).results.map
        (fun it => (it.id, it.title, it.score))) ∧
    ((rank_products intent (some df) explain).results =
      (sort_values_desc (scoredRows intent df)).map
        (mkItem (rankCategory df) (pyGoals intent false) explain)) ∧
    (∀ rc ∈ sort_values_desc (scoredRows intent df), ∀ e : String,
      explain rc.1 rc.2 (rankCategory df) (pyGoals intent false) = .error e →
      (mkItem (rankCategory df) (pyGoals intent false) explain rc).explanation =
        "(Could not generate explanation: " ++ e ++ ")" ∧
      (mkItem (rankCategory df) (pyGoals intent false) explain rc).explanation ≠ "") ∧
    (∀ rc ∈ sort_values_desc (scoredRows intent df), ∀ s : String,
      explain rc.1 rc.2 (rankCategory df) (pyGoals intent false) = .ok s →
      (mkItem (rankCategory df) (pyGoals intent false) explain rc).explanation = s) := by
  refine ⟨?_, ?_, ?_, ?_⟩
  · rw [rank_products_eq intent df explain hne, rank_products_eq intent df explain2 hne]
    simp only [List.map_map]
    rfl
  · rw [rank_products_eq intent df explain hne]
  · intro rc _ e he
    have hexp : (mkItem (rankCategory df) (pyGoals intent false) explain rc).explanation =
        "(Could not generate explanation: " ++ e ++ ")" := by
      rw [mkItem]
      simp only [he]
    exact ⟨hexp, by rw [hexp]; exact placeholder_ne_empty e⟩
  · intro rc _ s hs
    rw [mkItem]
    simp only [hs]

/-- An explanation collaborator that raises exactly on the $950 laptop. -/
def exMixed : ExplainFn := fun r _ _ _ =>
  if r.id == some "B" then .error "boom" else .ok "fine"

/-- Witness for C9: on the two-laptop frame, the collaborator failing for
the top-ranked $950 laptop leaves it first with the placeholder text, while
the $850 laptop keeps its generated text. -/
theorem claim_C9_witness :
    twoLaptopCatalog.rows ≠ [] ∧
    (laptop950, (7:ℚ)/10) ∈ sort_values_desc (scoredRows [] twoLaptopCatalog) ∧
    (laptop850, (3:ℚ)/10) ∈ sort_values_desc (scoredRows [] twoLaptopCatalog) ∧
    (mkItem (rankCategory twoLaptopCatalog) (pyGoals [] false) exMixed
      (laptop950, (7:ℚ)/10)).explanation =
        "(Could not generate explanation: " ++ "boom" ++ ")" ∧
    (mkItem (rankCategory twoLaptopCatalog) (pyGoals [] false) exMixed
      (laptop950, (7:ℚ)/10)).explanation ≠ "" ∧
    (mkItem (rankCategory twoLaptopCatalog) (pyGoals [] false) exMixed
      (laptop850, (3:ℚ)/10)).explanation = "fine" := by
  have hmem950 : (laptop950, (7:ℚ)/10) ∈ sort_values_desc (scoredRows [] twoLaptopCatalog) := by
    rw [twoLaptop_sorted]
    exact List.mem_cons_self _ _
  have hmem850 : (laptop850, (3:ℚ)/10) ∈ sort_values_desc (scoredRows [] twoLaptopCatalog) := by
    rw [twoLaptop_sorted]
    exact List.mem_cons_of_mem _ (List.mem_cons_self _ _)
  have hfail := (claim_C9 [] twoLaptopCatalog exMixed exMixed (by decide) rfl).2.2.1
    (laptop950, (7:ℚ)/10) hmem950 "boom" rfl
  have hok := (claim_C9 [] twoLaptopCatalog exMixed exMixed (by decide) rfl).2.2.2
    (laptop850, (3:ℚ)/10) hmem850 "fine" rfl
  exact ⟨by decide, hmem950, hmem850, hfail.1, hfail.2, hok⟩
